import Mathlib

/-!
Verification of the in-memory tree model and editing state machine of the
mind-map editor in src/not-h-m-m.py.

The embedding mirrors the Python source:

  - Node (src lines 19-24): text label, collapsed flag, ordered children.
    The Python parent back-pointer is not stored; in this pure embedding a
    node is addressed by its path (list of child indices) from the root,
    which plays the role of Python object identity, and structural mutation
    of a node object becomes rebuilding the tree along that path.
  - AppState (src lines 26-47) with get_visible_nodes and get_selected_node.
  - The key bindings (src lines 99-163) become a step function over an
    explicit command type; a binding whose filter rejects the current mode
    simply does not fire, which the model renders as an identity step.
    Where Python could raise (list indexing, list.index, list.remove) the
    model returns Option, with none modelling the exception.
  - parse_md (src lines 50-66) and to_markdown (src lines 68-74).
    The MarkdownIt tokenizer is an external library, not part of the
    repository; headings are modelled from the spec (section 6): a line of
    one or more marker characters followed by a space defines a heading
    whose level is the marker count and whose text is the rest of the line.
-/

inductive Node where
  | mk (text : String) (collapsed : Bool) (children : List Node)

def Node.text : Node → String | .mk t _ _ => t
def Node.collapsed : Node → Bool | .mk _ c _ => c
def Node.children : Node → List Node | .mk _ _ cs => cs

@[simp] theorem Node.text_mk (t c cs) : (Node.mk t c cs).text = t := rfl
@[simp] theorem Node.collapsed_mk (t c cs) : (Node.mk t c cs).collapsed = c := rfl
@[simp] theorem Node.children_mk (t c cs) : (Node.mk t c cs).children = cs := rfl

theorem Node.eta : ∀ n : Node, Node.mk n.text n.collapsed n.children = n
  | .mk _ _ _ => rfl

mutual
/-- Mutual structural induction for Node and forests of Nodes. -/
theorem node_ind {P : Node → Prop} {Q : List Node → Prop}
    (h1 : ∀ t c cs, Q cs → P (.mk t c cs)) (h2 : Q [])
    (h3 : ∀ n ns, P n → Q ns → Q (n :: ns)) : ∀ n, P n
  | .mk t c cs => h1 t c cs (forest_ind h1 h2 h3 cs)
termination_by n => sizeOf n
theorem forest_ind {P : Node → Prop} {Q : List Node → Prop}
    (h1 : ∀ t c cs, Q cs → P (.mk t c cs)) (h2 : Q [])
    (h3 : ∀ n ns, P n → Q ns → Q (n :: ns)) : ∀ ns, Q ns
  | [] => h2
  | n :: ns => h3 n ns (node_ind h1 h2 h3 n) (forest_ind h1 h2 h3 ns)
termination_by ns => sizeOf ns
end

mutual
/-- AppState.get_visible_nodes (src 34-42): pre-order walk, a node first,
then (unless it is collapsed) its children, recursively. -/
def visibleNodes : Node → List Node
  | .mk t c cs => .mk t c cs :: (if c then [] else visibleForest cs)
termination_by n => sizeOf n
def visibleForest : List Node → List Node
  | [] => []
  | c :: cs => visibleNodes c ++ visibleForest cs
termination_by ns => sizeOf ns
end

theorem visibleNodes_eq (n : Node) :
    visibleNodes n = n :: (if n.collapsed then [] else visibleForest n.children) := by
  cases n
  simp [visibleNodes]

theorem length_visibleNodes_pos (n : Node) : 0 < (visibleNodes n).length := by
  rw [visibleNodes_eq]; simp

/-- AppState (src 26-32).  selected_index is a Python int, hence Int. -/
structure AppState where
  filename : String
  root : Node
  selected_index : Int
  is_editing : Bool
  status_msg : String

def get_visible_nodes (s : AppState) : List Node := visibleNodes s.root

/-- The clamped index computed inside get_selected_node (src 46):
max(0, min(selected_index, len(nodes) - 1)). -/
def clampIdx (s : AppState) : Int :=
  max 0 (min s.selected_index ((get_visible_nodes s).length - 1))

/-- AppState.get_selected_node (src 44-47).  It both stores the clamped
index back into the state (observable side effect) and returns the node at
that position; an out-of-range index access would raise in Python, which
the Option models. -/
def get_selected_node (s : AppState) : AppState × Option Node :=
  ({ s with selected_index := clampIdx s },
   (get_visible_nodes s)[(clampIdx s).toNat]?)

theorem clampIdx_bounds (s : AppState) :
    0 ≤ clampIdx s ∧ clampIdx s < ((get_visible_nodes s).length : Int) := by
  have h1 : 0 < (get_visible_nodes s).length := length_visibleNodes_pos s.root
  unfold clampIdx
  omega

/-- C2.  Selection clamping: for every tree (the visible sequence is never
empty, the root always appears) and every integer selected_index,
get_selected_node returns (never raises) a node that is a member of the
current visible sequence, and it updates selected_index to the clamped
value, which lies in [0, len-1]. -/
theorem c2_selection_clamping (s : AppState) :
    ∃ n, (get_selected_node s).2 = some n ∧ n ∈ get_visible_nodes s ∧
      (get_selected_node s).1.selected_index
        = max 0 (min s.selected_index ((get_visible_nodes s).length - 1)) ∧
      0 ≤ (get_selected_node s).1.selected_index ∧
      (get_selected_node s).1.selected_index < ((get_visible_nodes s).length : Int) := by
  obtain ⟨h0, hlt⟩ := clampIdx_bounds s
  have hnat : (clampIdx s).toNat < (get_visible_nodes s).length := by omega
  refine ⟨(get_visible_nodes s)[(clampIdx s).toNat], ?_, ?_, rfl, h0, hlt⟩
  · simp [get_selected_node, List.getElem?_eq_getElem, hnat]
  · exact List.getElem_mem hnat

/-!  Paths.  A node object in the Python tree is identified here by its
path from the root: the list of child indices followed to reach it. -/

mutual
/-- The paths of the visible nodes, in the same pre-order as
get_visible_nodes; the root has path []. -/
def visPaths : Node → List (List Nat)
  | .mk _ c cs => [] :: (if c then [] else visPathsF cs 0)
termination_by n => sizeOf n
def visPathsF : List Node → Nat → List (List Nat)
  | [], _ => []
  | n :: ns, i => (visPaths n).map (i :: ·) ++ visPathsF ns (i + 1)
termination_by ns _ => sizeOf ns
end

theorem visPaths_eq (n : Node) :
    visPaths n = [] :: (if n.collapsed then [] else visPathsF n.children 0) := by
  cases n; simp [visPaths]

/-- Dereference a path. -/
def getPath : Node → List Nat → Option Node
  | n, [] => some n
  | n, i :: p =>
    match n.children[i]? with
    | some c => getPath c p
    | none => none

/-- Replace the i-th element of a forest by its image under f. -/
def forestModify (f : Node → Node) : List Node → Nat → List Node
  | [], _ => []
  | n :: ns, 0 => f n :: ns
  | n :: ns, i + 1 => n :: forestModify f ns i

/-- Apply f to the node at the given path, rebuilding the tree; a dangling
path leaves the tree unchanged except along the existing part. -/
def modifyPath (f : Node → Node) : Node → List Nat → Node
  | n, [] => f n
  | .mk t c cs, i :: p => .mk t c (forestModify (fun m => modifyPath f m p) cs i)

@[simp] theorem getPath_nil (n : Node) : getPath n [] = some n := rfl

theorem getPath_cons (n : Node) (i : Nat) (p : List Nat) :
    getPath n (i :: p) = match n.children[i]? with
      | some c => getPath c p
      | none => none := rfl

theorem getPath_cons_bind (n : Node) (i : Nat) (p : List Nat) :
    getPath n (i :: p) = (n.children[i]?).bind (fun c => getPath c p) := by
  rw [getPath_cons]
  cases n.children[i]? <;> simp

theorem getPath_append_single (t : Node) (p : List Nat) (k : Nat) :
    getPath t (p ++ [k]) = (getPath t p).bind (fun n => n.children[k]?) := by
  induction p generalizing t with
  | nil => simp [getPath_cons_bind]
  | cons i q ih =>
    rw [List.cons_append, getPath_cons_bind, getPath_cons_bind]
    cases t.children[i]? with
    | none => simp
    | some c => simp [ih c]

theorem forestModify_getElem? (f : Node → Node) (cs : List Node) (i j : Nat) :
    (forestModify f cs i)[j]? = if j = i then (cs[i]?).map f else cs[j]? := by
  induction cs generalizing i j with
  | nil => simp [forestModify]
  | cons n ns ih =>
    cases i with
    | zero =>
      cases j with
      | zero => simp [forestModify]
      | succ j' => simp [forestModify]
    | succ i' =>
      cases j with
      | zero => simp [forestModify]
      | succ j' => simpa [forestModify] using ih i' j'

theorem forestModify_length (f : Node → Node) (cs : List Node) (i : Nat) :
    (forestModify f cs i).length = cs.length := by
  induction cs generalizing i with
  | nil => rfl
  | cons n ns ih => cases i <;> simp [forestModify, ih]

@[simp] theorem modifyPath_nil (f : Node → Node) (n : Node) : modifyPath f n [] = f n := by
  cases n; rfl

theorem modifyPath_eq_cons (f : Node → Node) (n : Node) (i : Nat) (p : List Nat) :
    modifyPath f n (i :: p)
      = .mk n.text n.collapsed (forestModify (fun m => modifyPath f m p) n.children i) := by
  cases n; rfl

/-- Dereferencing the modified path hits the image under f. -/
theorem getPath_modifyPath_self (f : Node → Node) (t : Node) (p : List Nat) (n : Node)
    (h : getPath t p = some n) : getPath (modifyPath f t p) p = some (f n) := by
  induction p generalizing t with
  | nil => simp at h; subst h; simp
  | cons i q ih =>
    rw [getPath_cons_bind] at h
    cases hc : t.children[i]? with
    | none => rw [hc] at h; simp at h
    | some c =>
      rw [hc] at h
      simp at h
      rw [modifyPath_eq_cons, getPath_cons_bind]
      simp [forestModify_getElem?, hc]
      exact ih c h

/-- A strictly shorter prefix of the modified path still dereferences, to a
node with the same text and collapse flag (only a child list changes). -/
theorem getPath_modifyPath_prefix (f : Node → Node) (t : Node) (q : List Nat)
    (j : Nat) (rest : List Nat) (m : Node) (h : getPath t q = some m) :
    getPath (modifyPath f t (q ++ j :: rest)) q
      = some (.mk m.text m.collapsed
          (forestModify (fun c => modifyPath f c rest) m.children j)) := by
  induction q generalizing t with
  | nil =>
    simp at h
    subst h
    rw [List.nil_append, modifyPath_eq_cons]
    rfl
  | cons i q' ih =>
    rw [getPath_cons_bind] at h
    cases hc : t.children[i]? with
    | none => rw [hc] at h; simp at h
    | some c =>
      rw [hc] at h
      simp at h
      rw [List.cons_append, modifyPath_eq_cons, getPath_cons_bind]
      simp [forestModify_getElem?, hc]
      exact ih c h

theorem visPathsF_mem (ns : List Node) (k : Nat) (q : List Nat) :
    q ∈ visPathsF ns k
      ↔ ∃ i p, q = (k + i) :: p ∧ ∃ c, ns[i]? = some c ∧ p ∈ visPaths c := by
  induction ns generalizing k with
  | nil => simp [visPathsF]
  | cons n ns ih =>
    rw [visPathsF, List.mem_append, List.mem_map, ih (k + 1)]
    constructor
    · rintro (⟨p, hp, rfl⟩ | ⟨i, p, rfl, c, hc, hp⟩)
      · exact ⟨0, p, by simp, n, by simp, hp⟩
      · refine ⟨i + 1, p, ?_, c, by simpa using hc, hp⟩
        congr 1
        omega
    · rintro ⟨i, p, rfl, c, hc, hp⟩
      cases i with
      | zero =>
        left
        simp at hc
        subst hc
        exact ⟨p, hp, by simp⟩
      | succ i' =>
        right
        refine ⟨i', p, ?_, c, by simpa using hc, hp⟩
        congr 1
        omega

theorem visPathsF_zero_mem (ns : List Node) (q : List Nat) :
    q ∈ visPathsF ns 0
      ↔ ∃ i p, q = i :: p ∧ ∃ c, ns[i]? = some c ∧ p ∈ visPaths c := by
  simpa using visPathsF_mem ns 0 q

theorem filterMap_allSome_getElem? {α β : Type _} (l : List α) (f : α → Option β)
    (h : ∀ x ∈ l, (f x).isSome) (i : Nat) : (l.filterMap f)[i]? = (l[i]?).bind f := by
  induction l generalizing i with
  | nil => simp
  | cons a l ih =>
    obtain ⟨b, hb⟩ := Option.isSome_iff_exists.mp (h a (List.mem_cons_self a l))
    rw [List.filterMap_cons_some hb]
    cases i with
    | zero => simp [hb]
    | succ i' => simpa using ih (fun x hx => h x (List.mem_cons_of_mem _ hx)) i'

theorem filterMap_allSome_length {α β : Type _} (l : List α) (f : α → Option β)
    (h : ∀ x ∈ l, (f x).isSome) : (l.filterMap f).length = l.length := by
  induction l with
  | nil => simp
  | cons a l ih =>
    obtain ⟨b, hb⟩ := Option.isSome_iff_exists.mp (h a (List.mem_cons_self a l))
    rw [List.filterMap_cons_some hb]
    simpa using ih (fun x hx => h x (List.mem_cons_of_mem _ hx))

/-- Visible nodes are exactly the dereferenced visible paths, in order. -/
theorem visibleNodes_eq_filterMap :
    ∀ t : Node, visibleNodes t = (visPaths t).filterMap (getPath t) := by
  refine node_ind
    (P := fun t => visibleNodes t = (visPaths t).filterMap (getPath t))
    (Q := fun cs => ∀ t c cs₁,
      (visPathsF cs cs₁.length).filterMap (getPath (Node.mk t c (cs₁ ++ cs)))
        = visibleForest cs) ?_ ?_ ?_
  · intro tx c cs hQ
    rw [visPaths_eq, visibleNodes_eq]
    simp only [Node.collapsed_mk, Node.children_mk]
    rw [List.filterMap_cons_some (by simp : getPath (Node.mk tx c cs) [] = some (Node.mk tx c cs))]
    cases c with
    | true => simp
    | false =>
      simpa using (hQ tx false ([] : List Node)).symm
  · intro t c cs₁
    simp [visPathsF, visibleForest]
  · intro n ns hn hns t c cs₁
    rw [visPathsF]
    rw [List.filterMap_append, List.filterMap_map]
    have hget : (cs₁ ++ n :: ns)[cs₁.length]? = some n := by
      rw [List.getElem?_append_right (Nat.le_refl _)]
      simp
    have h1 : (getPath (Node.mk t c (cs₁ ++ n :: ns))) ∘ (cs₁.length :: ·) = getPath n := by
      funext p
      simp only [Function.comp_apply]
      rw [getPath_cons_bind]
      simp [hget]
    rw [h1, ← hn]
    have h2 : visPathsF ns (cs₁.length + 1) = visPathsF ns ((cs₁ ++ [n]).length) := by
      simp
    have h3 : Node.mk t c (cs₁ ++ n :: ns) = Node.mk t c ((cs₁ ++ [n]) ++ ns) := by
      simp
    rw [h2, h3, hns t c (cs₁ ++ [n])]
    simp [visibleForest]

/-- A path is visible iff it dereferences and every strictly shorter prefix
reaches an uncollapsed node (the node's own flag does not matter). -/
theorem visPaths_mem_char :
    ∀ t : Node, ∀ p, p ∈ visPaths t
      ↔ (∃ n, getPath t p = some n)
        ∧ ∀ q, q <+: p → q ≠ p →
            ∃ m, getPath t q = some m ∧ m.collapsed = false := by
  refine node_ind
    (P := fun t => ∀ p, p ∈ visPaths t
      ↔ (∃ n, getPath t p = some n)
        ∧ ∀ q, q <+: p → q ≠ p →
            ∃ m, getPath t q = some m ∧ m.collapsed = false)
    (Q := fun cs => ∀ c ∈ cs, ∀ p, p ∈ visPaths c
      ↔ (∃ n, getPath c p = some n)
        ∧ ∀ q, q <+: p → q ≠ p →
            ∃ m, getPath c q = some m ∧ m.collapsed = false) ?_ ?_ ?_
  · intro tx c cs hQ p
    constructor
    · intro hp
      rw [visPaths_eq] at hp
      rcases List.mem_cons.mp hp with rfl | hp
      · refine ⟨⟨_, rfl⟩, fun q hq hne => absurd (List.prefix_nil.mp hq) hne⟩
      · simp only [Node.collapsed_mk, Node.children_mk] at hp
        have hcf : c = false := by
          cases c with
          | true => simp at hp
          | false => rfl
        subst hcf
        rw [if_neg (by simp)] at hp
        obtain ⟨i, p', rfl, ci, hci, hpi⟩ := (visPathsF_zero_mem cs p).mp hp
        have hmem : ci ∈ cs := by
          have hlt : i < cs.length := by
            by_contra hge
            rw [List.getElem?_eq_none (by omega)] at hci
            exact Option.noConfusion hci
          rw [List.getElem?_eq_getElem hlt] at hci
          exact (Option.some.injEq _ _ ▸ hci) ▸ List.getElem_mem hlt
        obtain ⟨⟨n', hn'⟩, hanc⟩ := (hQ ci hmem p').mp hpi
        constructor
        · exact ⟨n', by rw [getPath_cons_bind]; simp [hci, hn']⟩
        · intro q hq hne
          cases q with
          | nil => exact ⟨.mk tx false cs, rfl, rfl⟩
          | cons j q' =>
            obtain ⟨rfl, hq'⟩ := (List.cons_prefix_cons.mp hq)
            obtain ⟨m, hm, hmc⟩ := hanc q' hq' (fun h => hne (by rw [h]))
            refine ⟨m, ?_, hmc⟩
            rw [getPath_cons_bind]
            simp [hci, hm]
    · rintro ⟨⟨n, hn⟩, hanc⟩
      rw [visPaths_eq]
      cases p with
      | nil => exact List.mem_cons_self _ _
      | cons i p' =>
        have hcf : c = false := by
          obtain ⟨m, hm, hmc⟩ := hanc [] List.nil_prefix (by simp)
          simp at hm
          rw [← hm] at hmc
          simpa using hmc
        subst hcf
        simp only [Node.collapsed_mk, Node.children_mk]
        rw [if_neg (by simp)]
        apply List.mem_cons_of_mem
        rw [getPath_cons_bind] at hn
        cases hci : (Node.mk tx false cs).children[i]? with
        | none => rw [hci] at hn; simp at hn
        | some ci =>
          rw [hci] at hn
          simp at hn
          simp only [Node.children_mk] at hci
          have hmem : ci ∈ cs := by
            have hlt : i < cs.length := by
              by_contra hge
              rw [List.getElem?_eq_none (by omega)] at hci
              exact Option.noConfusion hci
            rw [List.getElem?_eq_getElem hlt] at hci
            exact (Option.some.injEq _ _ ▸ hci) ▸ List.getElem_mem hlt
          refine (visPathsF_zero_mem cs (i :: p')).mpr ⟨i, p', rfl, ci, hci, ?_⟩
          refine (hQ ci hmem p').mpr ⟨⟨n, hn⟩, ?_⟩
          intro q' hq' hne'
          obtain ⟨m, hm, hmc⟩ :=
            hanc (i :: q') (List.cons_prefix_cons.mpr ⟨rfl, hq'⟩) (by simpa using hne')
          refine ⟨m, ?_, hmc⟩
          rw [getPath_cons_bind] at hm
          simpa [hci] using hm
  · intro c hc
    simp at hc
  · intro n ns hn hns c hc
    rcases List.mem_cons.mp hc with rfl | hc
    · exact hn
    · exact hns c hc

/-- The visible paths are strictly increasing in lexicographic order: that
is exactly depth-first pre-order (a node's path precedes the paths of all
of its descendants and of its later siblings). -/
theorem visPaths_pairwise :
    ∀ t : Node, (visPaths t).Pairwise (List.Lex (· < ·)) := by
  refine node_ind
    (P := fun t => (visPaths t).Pairwise (List.Lex (· < ·)))
    (Q := fun cs => ∀ k, (visPathsF cs k).Pairwise (List.Lex (· < ·))) ?_ ?_ ?_
  · intro tx c cs hQ
    rw [visPaths_eq]
    refine List.Pairwise.cons ?_ ?_
    · intro q hq
      cases c with
      | true => simp at hq
      | false =>
        simp only [Node.collapsed_mk, Node.children_mk] at hq
        rw [if_neg (by simp)] at hq
        obtain ⟨i, p, rfl, -⟩ := (visPathsF_zero_mem cs q).mp hq
        exact List.Lex.nil
    · cases c with
      | true => simp
      | false =>
        simp only [Node.collapsed_mk, Node.children_mk]
        rw [if_neg (by simp)]
        exact hQ 0
  · intro k
    simp [visPathsF]
  · intro n ns hn hns k
    rw [visPathsF, List.pairwise_append]
    refine ⟨?_, hns (k + 1), ?_⟩
    · rw [List.pairwise_map]
      exact hn.imp (fun h => List.Lex.cons h)
    · intro a ha b hb
      obtain ⟨p, hp, rfl⟩ := List.mem_map.mp ha
      obtain ⟨i, p', rfl, -⟩ := (visPathsF_mem ns (k + 1) b).mp hb
      exact List.Lex.rel (by omega)

/-- C5.  Visibility flattener: get_visible_nodes lists exactly the nodes at
the visible paths; the visible paths are in strict depth-first pre-order
(so every node appears before its children); and a path is visible exactly
when it exists in the tree and no strictly-proper ancestor is collapsed —
so a collapsed node still appears, but its entire subtree is skipped,
regardless of the descendants' own collapsed flags. -/
theorem c5_visibility_flattener (t : Node) :
    visibleNodes t = (visPaths t).filterMap (getPath t)
    ∧ (visPaths t).Pairwise (List.Lex (· < ·))
    ∧ ∀ p, p ∈ visPaths t
        ↔ (∃ n, getPath t p = some n)
          ∧ ∀ q, q <+: p → q ≠ p →
              ∃ m, getPath t q = some m ∧ m.collapsed = false :=
  ⟨visibleNodes_eq_filterMap t, visPaths_pairwise t, visPaths_mem_char t⟩

theorem getPath_isSome_of_mem_visPaths (t : Node) (p : List Nat)
    (hp : p ∈ visPaths t) : (getPath t p).isSome := by
  obtain ⟨⟨n, hn⟩, -⟩ := (visPaths_mem_char t p).mp hp
  simp [hn]

theorem visPaths_length (t : Node) :
    (visPaths t).length = (visibleNodes t).length := by
  rw [visibleNodes_eq_filterMap t,
    filterMap_allSome_length _ _ (fun p hp => getPath_isSome_of_mem_visPaths t p hp)]

theorem visibleNodes_getElem? (t : Node) (i : Nat) :
    (visibleNodes t)[i]? = ((visPaths t)[i]?).bind (getPath t) := by
  rw [visibleNodes_eq_filterMap t,
    filterMap_allSome_getElem? _ _ (fun p hp => getPath_isSome_of_mem_visPaths t p hp)]

/-!  Editing commands.  One constructor per key binding of the source;
a binding whose mode filter is false does not fire on the key press, so the
state is returned unchanged.  Python-level exceptions (index out of range,
list.index failure) are modelled by none. -/

/-- The placeholder child created by the tab binding (src 118). -/
def newChildNode : Node := .mk "New Node" false []

/-- The placeholder sibling created by the enter binding (src 129). -/
def newSiblingNode : Node := .mk "New Sibling" false []

/-- Python list.index for the fresh visible-path list: position of the
first (here: only) occurrence of the target, none when absent (ValueError). -/
def pathIndex (target : List Nat) : List (List Nat) → Option Nat
  | [] => none
  | q :: qs => if q = target then some 0 else (pathIndex target qs).map (· + 1)

/-- The state after the clamping side effect of get_selected_node. -/
def clampState (s : AppState) : AppState := { s with selected_index := clampIdx s }

/-- The selected node object of get_selected_node, identified by its path:
the path at the clamped position of the visible pre-order together with the
node sitting there.  Python list indexing can raise; hence Option. -/
def selected (s : AppState) : Option (List Nat × Node) :=
  match (visPaths s.root)[(clampIdx s).toNat]? with
  | none => none
  | some p =>
    match getPath s.root p with
    | none => none
    | some n => some (p, n)

/-- Remove the node reached by a nonempty path from its parent's child
list; Python node.parent.children.remove(node) removes exactly that
occurrence because list.remove compares by object identity here. -/
def removeAt : Node → List Nat → Node
  | n, [] => n
  | .mk t c cs, [i] => .mk t c (cs.eraseIdx i)
  | .mk t c cs, i :: j :: p => .mk t c (forestModify (fun m => removeAt m (j :: p)) cs i)

inductive Cmd where
  | up
  | down
  | edit
  | addChild
  | addSibling
  | finishEdit (typed : String)
  | cancelEdit
  | delete
  | toggleCollapse

/-- parent.children.append(new_node); parent.collapsed = False (src 119-120). -/
def appendChild (m : Node) : Node := .mk m.text false (m.children ++ [newChildNode])

/-- current.parent.children.insert(idx + 1, new_node) (src 131), where idx
is the selected node's position k among its siblings. -/
def insertSibling (k : Nat) (m : Node) : Node :=
  .mk m.text m.collapsed (m.children.insertIdx (k + 1) newSiblingNode)

/-- node.text = edit_input.text or "Untitled" (src 138): an empty draft
falls back to the literal. -/
def setTextTo (typed : String) (m : Node) : Node :=
  .mk (if typed = "" then "Untitled" else typed) m.collapsed m.children

/-- node.collapsed = not node.collapsed (src 163). -/
def flipCollapsed (m : Node) : Node := .mk m.text (!m.collapsed) m.children

/-- One input event against the key bindings (src 99-163). -/
def step (s : AppState) : Cmd → Option AppState
  | .up =>
    -- src 103-105: filtered by is_not_editing; no clamping here
    if s.is_editing then some s else
      some { s with selected_index := s.selected_index - 1 }
  | .down =>
    -- src 107-109
    if s.is_editing then some s else
      some { s with selected_index := s.selected_index + 1 }
  | .edit =>
    -- src 111-113: trigger_edit(event, state.get_selected_node().text);
    -- reading the selected node clamps the index, the popup pre-fill is
    -- presentation state outside this model
    if s.is_editing then some s else
      match selected s with
      | none => none
      | some _ => some { clampState s with is_editing := true }
  | .addChild =>
    -- src 115-123: parent = get_selected_node(); append new child;
    -- parent.collapsed = False; selected_index = visible.index(new_node);
    -- trigger_edit
    if s.is_editing then some s else
      match selected s with
      | none => none
      | some (p, n) =>
        let root' := modifyPath appendChild s.root p
        -- list.index compares by object identity: the new node is the
        -- object at path p ++ [len(old children)] of the new tree
        match pathIndex (p ++ [n.children.length]) (visPaths root') with
        | none => none
        | some j =>
          some { s with root := root', selected_index := (j : Int), is_editing := true }
  | .addSibling =>
    -- src 125-134: current = get_selected_node(); if current.parent:
    -- insert after current among the parent's children; reselect; edit.
    -- The selected node is the root exactly when its path is [].
    if s.is_editing then some s else
      match selected s with
      | none => none
      | some (p, _) =>
        if p = [] then some (clampState s)
        else
          let q := p.dropLast
          let k := p.getLastD 0
          -- idx = current.parent.children.index(current) = k, by identity
          let root' := modifyPath (insertSibling k) s.root q
          match pathIndex (q ++ [k + 1]) (visPaths root') with
          | none => none
          | some j =>
            some { s with root := root', selected_index := (j : Int), is_editing := true }
  | .finishEdit typed =>
    -- src 136-140: only in text-entry mode; stores the draft (or the
    -- fallback literal when the draft is empty, Python: text or "Untitled")
    -- into the currently selected node and leaves text-entry mode
    if s.is_editing then
      match selected s with
      | none => none
      | some (p, _) =>
        some { clampState s with
          root := modifyPath (setTextTo typed) s.root p,
          is_editing := false }
    else some s
  | .cancelEdit =>
    -- src 142-145: only leaves text-entry mode
    if s.is_editing then some { s with is_editing := false } else some s
  | .delete =>
    -- src 147-151: node = get_selected_node(); if node.parent: remove it
    if s.is_editing then some s else
      match selected s with
      | none => none
      | some (p, _) =>
        if p = [] then some (clampState s)
        else some { clampState s with root := removeAt s.root p }
  | .toggleCollapse =>
    -- src 159-163: node = get_selected_node(); if node.children: flip flag
    if s.is_editing then some s else
      match selected s with
      | none => none
      | some (p, n) =>
        if n.children.isEmpty then some (clampState s)
        else some { clampState s with
          root := modifyPath flipCollapsed s.root p }

theorem pathIndex_of_mem (target : List Nat) (l : List (List Nat)) (h : target ∈ l) :
    ∃ j, pathIndex target l = some j ∧ l[j]? = some target := by
  induction l with
  | nil => simp at h
  | cons q qs ih =>
    by_cases hq : q = target
    · subst hq
      exact ⟨0, by simp [pathIndex], by simp⟩
    · rcases List.mem_cons.mp h with rfl | h'
      · exact absurd rfl hq
      · obtain ⟨j, hj, hx⟩ := ih h'
        exact ⟨j + 1, by simp [pathIndex, hq, hj], by simpa using hx⟩

theorem pathIndex_lt_length (target : List Nat) (l : List (List Nat)) (j : Nat)
    (h : pathIndex target l = some j) : j < l.length := by
  induction l generalizing j with
  | nil => simp [pathIndex] at h
  | cons q qs ih =>
    rw [pathIndex] at h
    simp only [List.length_cons]
    by_cases hq : q = target
    · rw [if_pos hq] at h
      simp at h
      omega
    · rw [if_neg hq] at h
      cases hpi : pathIndex target qs with
      | none => rw [hpi] at h; simp at h
      | some j' =>
        rw [hpi] at h
        simp at h
        have := ih j' hpi
        omega

theorem proper_prefix_decomp {q p : List Nat} (h : q <+: p) (hne : q ≠ p) :
    ∃ j rest, p = q ++ j :: rest := by
  obtain ⟨r, hr⟩ := h
  cases r with
  | nil => exact absurd (by simpa using hr) hne
  | cons j rest => exact ⟨j, rest, hr.symm⟩

theorem prefix_append_single {q p : List Nat} {k : Nat} (h : q <+: p ++ [k]) :
    q = p ++ [k] ∨ q <+: p := by
  obtain ⟨r, hr⟩ := h
  induction r using List.reverseRecOn with
  | nil => left; simpa using hr
  | append_singleton r' a _ =>
    right
    rw [← List.append_assoc] at hr
    obtain ⟨h1, -⟩ := List.append_inj' hr rfl
    exact ⟨r', h1⟩

/-- The selected node always exists: path, node, and the agreement with
get_selected_node. -/
theorem selected_spec (s : AppState) :
    ∃ p n, selected s = some (p, n)
      ∧ (visPaths s.root)[(clampIdx s).toNat]? = some p
      ∧ p ∈ visPaths s.root
      ∧ getPath s.root p = some n
      ∧ (get_selected_node s).2 = some n := by
  obtain ⟨h0, hlt⟩ := clampIdx_bounds s
  have hvis : (get_visible_nodes s).length = (visibleNodes s.root).length := rfl
  have hlen : (clampIdx s).toNat < (visPaths s.root).length := by
    rw [visPaths_length]
    omega
  have hp : (visPaths s.root)[(clampIdx s).toNat]?
      = some ((visPaths s.root)[(clampIdx s).toNat]) := List.getElem?_eq_getElem hlen
  have hmem : (visPaths s.root)[(clampIdx s).toNat] ∈ visPaths s.root :=
    List.getElem_mem hlen
  obtain ⟨n, hn⟩ := Option.isSome_iff_exists.mp
    (getPath_isSome_of_mem_visPaths s.root _ hmem)
  refine ⟨_, n, ?_, hp, hmem, hn, ?_⟩
  · simp [selected, hp, hn]
  · show (get_visible_nodes s)[(clampIdx s).toNat]? = some n
    rw [get_visible_nodes, visibleNodes_getElem?, hp]
    simpa using hn

/-- C6.  Text-entry transitions.  While is_editing is true every
navigation-mode binding is filtered out, so the state (and with it the
selection, hence the node targeted when entry began) cannot change; commit
stores the typed text (or the fallback "Untitled" when it is empty) into
the node that was targeted when entry began and returns to navigation
mode; cancel returns to navigation mode leaving tree and selection
untouched. -/
theorem c6_text_entry_transitions (s : AppState) (h : s.is_editing = true) :
    (step s .up = some s ∧ step s .down = some s ∧ step s .edit = some s ∧
     step s .addChild = some s ∧ step s .addSibling = some s ∧
     step s .delete = some s ∧ step s .toggleCollapse = some s) ∧
    (∀ typed, ∃ s' p n, step s (.finishEdit typed) = some s' ∧
       selected s = some (p, n) ∧
       s'.root = modifyPath (setTextTo typed) s.root p ∧
       getPath s'.root p
         = some (.mk (if typed = "" then "Untitled" else typed) n.collapsed n.children) ∧
       s'.is_editing = false) ∧
    (∃ s2, step s .cancelEdit = some s2 ∧ s2.root = s.root ∧
       s2.is_editing = false ∧ s2.selected_index = s.selected_index) := by
  refine ⟨⟨by simp [step, h], by simp [step, h], by simp [step, h], by simp [step, h],
    by simp [step, h], by simp [step, h], by simp [step, h]⟩, ?_, ?_⟩
  · intro typed
    obtain ⟨p, n, hsel, -, -, hn, -⟩ := selected_spec s
    have hstep : step s (.finishEdit typed)
        = some { clampState s with
                 root := modifyPath (setTextTo typed) s.root p
                 is_editing := false } := by
      simp [step, h, hsel]
    refine ⟨_, p, n, hstep, hsel, rfl, ?_, rfl⟩
    simpa [setTextTo] using getPath_modifyPath_self (setTextTo typed) s.root p n hn
  · refine ⟨{ s with is_editing := false }, ?_, rfl, rfl, rfl⟩
    simp [step, h]

/-- C8.  Silent no-ops: when the selected node is the root (path [], the
node with no parent), delete and insert-sibling leave the tree unchanged
and raise nothing; when the selected node has no children,
toggle-collapse leaves the tree unchanged and raises nothing. -/
theorem c8_silent_noops (s : AppState) (h : s.is_editing = false) :
    (∀ n, selected s = some ([], n) →
      (∃ s1, step s .delete = some s1 ∧ s1.root = s.root) ∧
      (∃ s2, step s .addSibling = some s2 ∧ s2.root = s.root ∧
        s2.is_editing = false)) ∧
    (∀ p n, selected s = some (p, n) → n.children = [] →
      ∃ s3, step s .toggleCollapse = some s3 ∧ s3.root = s.root) := by
  constructor
  · intro n hsel
    constructor
    · exact ⟨clampState s, by simp [step, h, hsel], rfl⟩
    · exact ⟨clampState s, by simp [step, h, hsel], rfl, h⟩
  · intro p n hsel hchild
    exact ⟨clampState s, by simp [step, h, hsel, hchild], rfl⟩

/-- C7.  Insert child: the command appends the placeholder child to the
selected node, forces that parent uncollapsed, and selects the new child's
position in the freshly recomputed visible sequence — so even under a
previously collapsed parent the new child is visible and selected. -/
theorem c7_insert_child (s : AppState) (h : s.is_editing = false) :
    ∃ s' p n, ∃ j : Nat, step s .addChild = some s' ∧ selected s = some (p, n) ∧
      s'.root = modifyPath appendChild s.root p ∧
      getPath s'.root p = some (.mk n.text false (n.children ++ [newChildNode])) ∧
      s'.selected_index = (j : Int) ∧
      (visPaths s'.root)[j]? = some (p ++ [n.children.length]) ∧
      getPath s'.root (p ++ [n.children.length]) = some newChildNode ∧
      (get_selected_node s').2 = some newChildNode ∧
      newChildNode ∈ get_visible_nodes s' ∧
      s'.is_editing = true := by
  obtain ⟨p, n, hsel, hp?, hmem, hn, -⟩ := selected_spec s
  have hparent : getPath (modifyPath appendChild s.root p) p
      = some (.mk n.text false (n.children ++ [newChildNode])) := by
    simpa [appendChild] using getPath_modifyPath_self appendChild s.root p n hn
  have hchild : getPath (modifyPath appendChild s.root p) (p ++ [n.children.length])
      = some newChildNode := by
    rw [getPath_append_single, hparent]
    simp
  have hvismem : (p ++ [n.children.length]) ∈ visPaths (modifyPath appendChild s.root p) := by
    refine (visPaths_mem_char _ _).mpr ⟨⟨_, hchild⟩, ?_⟩
    intro q hq hne
    rcases prefix_append_single hq with rfl | hqp
    · exact absurd rfl hne
    · by_cases hqe : q = p
      · subst hqe
        exact ⟨_, hparent, rfl⟩
      · obtain ⟨j0, rest, hdecomp⟩ := proper_prefix_decomp hqp hqe
        obtain ⟨-, hanc⟩ := (visPaths_mem_char s.root p).mp hmem
        obtain ⟨m, hm, hmc⟩ := hanc q hqp hqe
        have hkeep := getPath_modifyPath_prefix appendChild s.root q j0 rest m hm
        rw [← hdecomp] at hkeep
        exact ⟨_, hkeep, by simpa using hmc⟩
  obtain ⟨j, hji, hjx⟩ := pathIndex_of_mem _ _ hvismem
  have hstep : step s .addChild = some { s with
      root := modifyPath appendChild s.root p
      selected_index := (j : Int)
      is_editing := true } := by
    simp [step, h, hsel, hji]
  have hjlen : j < (visPaths (modifyPath appendChild s.root p)).length :=
    pathIndex_lt_length _ _ j hji
  have hvislen : (visibleNodes (modifyPath appendChild s.root p)).length
      = (visPaths (modifyPath appendChild s.root p)).length :=
    (visPaths_length _).symm
  refine ⟨_, p, n, j, hstep, hsel, rfl, hparent, rfl, hjx, hchild, ?_, ?_, rfl⟩
  · show (get_visible_nodes _)[(clampIdx _).toNat]? = some newChildNode
    have hclamp : clampIdx { s with
        root := modifyPath appendChild s.root p
        selected_index := (j : Int)
        is_editing := true } = (j : Int) := by
      unfold clampIdx
      show max 0 (min (j : Int) ((visibleNodes (modifyPath appendChild s.root p)).length - 1)) = (j : Int)
      omega
    rw [hclamp]
    show (visibleNodes (modifyPath appendChild s.root p))[((j : Int)).toNat]? = some newChildNode
    rw [visibleNodes_getElem?]
    simp only [Int.toNat_ofNat]
    rw [hjx]
    simpa using hchild
  · show newChildNode ∈ visibleNodes (modifyPath appendChild s.root p)
    rw [visibleNodes_eq_filterMap]
    exact List.mem_filterMap.mpr ⟨_, hvismem, hchild⟩

theorem visibleForest_length_forestModify (g : Node → Node) (cs : List Node)
    (i : Nat) (ci : Node) (hci : cs[i]? = some ci) :
    (visibleForest (forestModify g cs i)).length + (visibleNodes ci).length
      = (visibleForest cs).length + (visibleNodes (g ci)).length := by
  induction cs generalizing i with
  | nil => simp at hci
  | cons c0 cs' ih =>
    cases i with
    | zero =>
      simp at hci
      subst hci
      simp [forestModify, visibleForest]
      omega
    | succ i' =>
      simp at hci
      have := ih i' hci
      simp [forestModify, visibleForest]
      omega

/-- Replacing the subtree at a visible path trades its visible-node count
for that of the replacement, leaving the rest of the count unchanged. -/
theorem visibleNodes_length_modifyPath (f : Node → Node) (t : Node) (p : List Nat)
    (n : Node) (hp : p ∈ visPaths t) (hn : getPath t p = some n) :
    (visibleNodes (modifyPath f t p)).length + (visibleNodes n).length
      = (visibleNodes t).length + (visibleNodes (f n)).length := by
  induction p generalizing t with
  | nil =>
    simp at hn
    subst hn
    simp
    omega
  | cons i p' ih =>
    rw [visPaths_eq] at hp
    rcases List.mem_cons.mp hp with hmm | hp'
    · exact absurd hmm (by simp)
    · have hcf : t.collapsed = false := by
        cases hcoll : t.collapsed with
        | true => rw [hcoll] at hp'; simp at hp'
        | false => rfl
      rw [if_neg (by simp [hcf])] at hp'
      obtain ⟨i', p'', heq, ci, hci, hpi⟩ := (visPathsF_zero_mem t.children (i :: p')).mp hp'
      obtain ⟨rfl, rfl⟩ : i = i' ∧ p' = p'' := by
        constructor
        · exact (List.cons.injEq _ _ _ _ ▸ heq).1
        · exact (List.cons.injEq _ _ _ _ ▸ heq).2
      rw [getPath_cons_bind, hci] at hn
      simp at hn
      cases t with
      | mk tx c cs =>
        simp at hcf
        subst hcf
        simp at hci
        rw [modifyPath_eq_cons]
        simp only [Node.children_mk, Node.text_mk, Node.collapsed_mk]
        have hmod := visibleForest_length_forestModify
          (fun m => modifyPath f m p') cs i ci hci
        simp only at hmod
        have hih := ih ci hpi hn
        have hA : (visibleNodes (Node.mk tx false
            (forestModify (fun m => modifyPath f m p') cs i))).length
            = 1 + (visibleForest (forestModify (fun m => modifyPath f m p') cs i)).length := by
          rw [visibleNodes_eq]
          simp
          omega
        have hB : (visibleNodes (Node.mk tx false cs)).length
            = 1 + (visibleForest cs).length := by
          rw [visibleNodes_eq]
          simp
          omega
        omega

theorem forestModify_comp (f g : Node → Node) (cs : List Node) (i : Nat) :
    forestModify g (forestModify f cs i) i = forestModify (fun m => g (f m)) cs i := by
  induction cs generalizing i with
  | nil => simp [forestModify]
  | cons c0 cs' ih =>
    cases i with
    | zero => simp [forestModify]
    | succ i' => simp [forestModify, ih]

theorem forestModify_congr (f g : Node → Node) (h : ∀ m, f m = g m)
    (cs : List Node) (i : Nat) : forestModify f cs i = forestModify g cs i := by
  induction cs generalizing i with
  | nil => simp [forestModify]
  | cons c0 cs' ih =>
    cases i with
    | zero => simp [forestModify, h]
    | succ i' => simp [forestModify, ih]

theorem modifyPath_comp (f g : Node → Node) (t : Node) (p : List Nat) :
    modifyPath g (modifyPath f t p) p = modifyPath (fun m => g (f m)) t p := by
  induction p generalizing t with
  | nil => simp
  | cons i p' ih =>
    rw [modifyPath_eq_cons, modifyPath_eq_cons, modifyPath_eq_cons]
    simp only [Node.text_mk, Node.collapsed_mk, Node.children_mk]
    rw [forestModify_comp]
    congr 1
    exact forestModify_congr _ _ (fun m => ih m) _ _

theorem modifyPath_id (t : Node) (p : List Nat) :
    modifyPath (fun m => m) t p = t := by
  induction p generalizing t with
  | nil => simp
  | cons i p' ih =>
    rw [modifyPath_eq_cons]
    have : (fun m => modifyPath (fun m => m) m p') = fun m => m := funext fun m => ih m
    rw [this]
    have hfm : ∀ (cs : List Node) i, forestModify (fun m => m) cs i = cs := by
      intro cs
      induction cs with
      | nil => intro i; simp [forestModify]
      | cons c0 cs' ih2 =>
        intro i
        cases i with
        | zero => simp [forestModify]
        | succ i' => simp [forestModify, ih2]
    rw [hfm]
    exact Node.eta t

theorem flipCollapsed_flipCollapsed (m : Node) : flipCollapsed (flipCollapsed m) = m := by
  cases m
  simp [flipCollapsed]

/-- C9.  Visibility monotonicity: toggling the collapsed flag of a visible
node with children changes the visible-node count by exactly the number of
visible nodes in its (expanded) subtree excluding the node itself —
collapsing removes that many, expanding adds that many — and toggling it
twice restores the original count (indeed the original tree). -/
theorem c9_visibility_monotonicity (t : Node) (p : List Nat) (n : Node)
    (hp : p ∈ visPaths t) (hn : getPath t p = some n) (hc : n.children ≠ []) :
    (n.collapsed = true →
      (visibleNodes (modifyPath flipCollapsed t p)).length
        = (visibleNodes t).length
          + ((visibleNodes (.mk n.text false n.children)).length - 1)) ∧
    (n.collapsed = false →
      (visibleNodes t).length
        = (visibleNodes (modifyPath flipCollapsed t p)).length
          + ((visibleNodes (.mk n.text false n.children)).length - 1)) ∧
    modifyPath flipCollapsed (modifyPath flipCollapsed t p) p = t ∧
    (visibleNodes (modifyPath flipCollapsed (modifyPath flipCollapsed t p) p)).length
      = (visibleNodes t).length := by
  have hmain := visibleNodes_length_modifyPath flipCollapsed t p n hp hn
  have hdouble : modifyPath flipCollapsed (modifyPath flipCollapsed t p) p = t := by
    rw [modifyPath_comp]
    have : (fun m => flipCollapsed (flipCollapsed m)) = fun m => m :=
      funext fun m => flipCollapsed_flipCollapsed m
    rw [this, modifyPath_id]
  refine ⟨?_, ?_, hdouble, by rw [hdouble]⟩
  · intro hcoll
    have h1 : (visibleNodes n).length = 1 := by
      rw [visibleNodes_eq, hcoll]
      simp
    have h2 : visibleNodes (flipCollapsed n)
        = visibleNodes (.mk n.text false n.children) := by
      cases n
      simp at hcoll
      subst hcoll
      simp [flipCollapsed]
    have h3 : 0 < (visibleNodes (.mk n.text false n.children)).length :=
      length_visibleNodes_pos _
    rw [h2] at hmain
    omega
  · intro hcoll
    have h2 : visibleNodes n = visibleNodes (.mk n.text false n.children) := by
      cases n
      simp at hcoll
      subst hcoll
      simp
    have h4 : visibleNodes (flipCollapsed n) = [flipCollapsed n] := by
      rw [visibleNodes_eq]
      cases n
      simp at hcoll
      subst hcoll
      simp [flipCollapsed]
    have h3 : 0 < (visibleNodes (.mk n.text false n.children)).length :=
      length_visibleNodes_pos _
    rw [h4] at hmain
    rw [h2] at hmain
    simp at hmain
    omega

/-!  Markdown export (src 68-74) and import (src 50-66). -/

/-- The heading marker run: Python f-string piece '#' * level. -/
def hashStr (level : Nat) : String := String.mk (List.replicate level '#')

mutual
/-- to_markdown (src 68-74): emit one heading line for the node itself when
level > 0, then the children's lines at level + 1, in order. -/
def to_markdown : Node → Nat → List String
  | .mk t _ cs, level =>
    (if 0 < level then [hashStr level ++ " " ++ t] else []) ++ to_markdownF cs (level + 1)
termination_by n _ => sizeOf n
def to_markdownF : List Node → Nat → List String
  | [], _ => []
  | n :: ns, level => to_markdown n level ++ to_markdownF ns level
termination_by ns _ => sizeOf ns
end

/-- Python str.join with a newline separator (src 156). -/
def joinLines : List String → String
  | [] => ""
  | [l] => l
  | l :: ls => l ++ "\n" ++ joinLines ls

/-- Split a character list at every newline character. -/
def splitNl : List Char → List (List Char)
  | [] => [[]]
  | c :: cs =>
    let r := splitNl cs
    if c = '\n' then [] :: r
    else
      match r with
      | [] => [[c]]
      | l :: ls => (c :: l) :: ls

/-- Modelled from the spec: the MarkdownIt heading tokenization that
parse_md consumes is an external library; section 6 of the spec defines a
heading as a line of one or more marker characters followed by a space,
the level being the marker count and the text the rest of the line, with
no escaping; every other line is ignored. -/
def headingOfChars (cs : List Char) : Option (Nat × String) :=
  let hashes := cs.takeWhile (fun c => c == '#')
  match cs.drop hashes.length with
  | ' ' :: text =>
    if hashes.length = 0 then none else some (hashes.length, String.mk text)
  | _ => none

/-- Modelled from the spec: the block tokenizer, reduced to the heading
tokens parse_md looks at (every other token type is skipped, src 56). -/
def tokenize (md : String) : List (Nat × String) :=
  (splitNl md.data).filterMap headingOfChars

/-- Modelled from the spec: os.path.basename, the part of the path after
the last separator, used for the root label (src 53). -/
def basename (s : String) : String :=
  String.mk (s.data.foldl (fun acc c => if c = '/' then [] else acc ++ [c]) [])

/-- Append a completed subtree, if any, to a child list. -/
def withCarry (cs : List Node) : Option Node → List Node
  | none => cs
  | some n => cs ++ [n]

/-- The import stack of parse_md (src 54-65), top first.  In the Python
code a new node is appended to its parent's children at creation time and
the stack only records (level, node); in this pure rendering each stack
entry (level, text, children-so-far) collects its children and the
finished node is handed down to the entry below when the entry is popped,
which attaches the same children to the same parents in the same order.
popCarry pops while the top entry's level is ≥ L (the while loop, src
60-61), threading the node completed so far. -/
def popCarry (L : Nat) :
    Option Node → List (Nat × String × List Node) → List (Nat × String × List Node)
  | _, [] => []
  | c?, (l, t, cs) :: rest =>
    if L ≤ l then popCarry L (some (.mk t false (withCarry cs c?))) rest
    else (l, t, withCarry cs c?) :: rest

def popWhileGE (L : Nat) (st : List (Nat × String × List Node)) :
    List (Nat × String × List Node) :=
  popCarry L none st

/-- The token loop of parse_md (src 55-65): for each heading (L, x), pop
while the top level is ≥ L, then read the new top as parent (stack[-1],
an IndexError — none — if the stack emptied) and push (L, x) with no
children yet. -/
def runM : List (Nat × String × List Node) → List (Nat × String) →
    Option (List (Nat × String × List Node))
  | st, [] => some st
  | st, (L, x) :: rest =>
    match popWhileGE L st with
    | [] => none
    | e :: st' => runM ((L, x, []) :: e :: st') rest

/-- End of input: the still-open entries are popped down to the bottom
(root) entry, which yields the root node. -/
def finishCarry : Option Node → List (Nat × String × List Node) → Option Node
  | _, [] => none
  | c?, [(_, t, cs)] => some (.mk t false (withCarry cs c?))
  | c?, (_, t, cs) :: e :: st =>
    finishCarry (some (.mk t false (withCarry cs c?))) (e :: st)

def finishStack (st : List (Nat × String × List Node)) : Option Node :=
  finishCarry none st

/-- parse_md (src 50-66): root labelled with the file's basename, stack
initialised with (0, root), then the token loop. -/
def parse_md (md filename : String) : Option Node :=
  (runM [(0, basename filename, [])] (tokenize md)).bind finishStack

mutual
/-- One pre-order line per node: depth and text. -/
def flatDepth : Node → Nat → List (Nat × String)
  | .mk t _ cs, d => (d, t) :: flatDepthF cs (d + 1)
termination_by n _ => sizeOf n
def flatDepthF : List Node → Nat → List (Nat × String)
  | [], _ => []
  | n :: ns, d => flatDepth n d ++ flatDepthF ns d
termination_by ns _ => sizeOf ns
end

def lineOf (e : Nat × String) : String := hashStr e.1 ++ " " ++ e.2

/-- The exporter format stated by the spec: walk the tree in pre-order
(children right after their parent, before the parent's later siblings,
in insertion order), skip the root (depth 0), and emit one line of d
marker characters, a space, and the text for each node at depth d. -/
def exportSpec (t : Node) : List String :=
  ((flatDepth t 0).filter (fun e => 0 < e.1)).map lineOf

theorem to_markdown_eq (n : Node) (level : Nat) :
    to_markdown n level
      = (if 0 < level then [hashStr level ++ " " ++ n.text] else [])
        ++ to_markdownF n.children (level + 1) := by
  cases n; simp [to_markdown]

theorem flatDepth_eq (n : Node) (d : Nat) :
    flatDepth n d = (d, n.text) :: flatDepthF n.children (d + 1) := by
  cases n; simp [flatDepth]

theorem to_markdown_filter_spec :
    ∀ n : Node, ∀ d, to_markdown n d
      = ((flatDepth n d).filter (fun e => 0 < e.1)).map lineOf := by
  refine node_ind
    (P := fun n => ∀ d, to_markdown n d
      = ((flatDepth n d).filter (fun e => 0 < e.1)).map lineOf)
    (Q := fun ns => ∀ d, to_markdownF ns d
      = ((flatDepthF ns d).filter (fun e => 0 < e.1)).map lineOf) ?_ ?_ ?_
  · intro t c cs hQ d
    rw [to_markdown_eq, flatDepth_eq]
    simp only [Node.text_mk, Node.children_mk]
    rw [List.filter_cons]
    cases d with
    | zero => simpa using hQ 1
    | succ d' =>
      simp [hQ, lineOf]
  · intro d
    simp [to_markdownF, flatDepthF]
  · intro n ns hn hns d
    simp only [to_markdownF, flatDepthF]
    rw [List.filter_append, List.map_append, hn d, hns d]

/-- C4.  Exporter format: serialization is exactly the pre-order walk in
which the root (depth 0) emits no line and every other node at depth d
emits one line of d marker characters, a space, and its text, children
directly after their parent and before the parent's later siblings, in
insertion order. -/
theorem c4_exporter_format (t : Node) : to_markdown t 0 = exportSpec t :=
  to_markdown_filter_spec t 0

mutual
/-- Erase all collapse flags (parse_md only ever constructs nodes with the
default collapsed = False, src 22-23 and 59). -/
def eraseT : Node → Node
  | .mk t _ cs => .mk t false (eraseF cs)
termination_by n => sizeOf n
def eraseF : List Node → List Node
  | [] => []
  | n :: ns => eraseT n :: eraseF ns
termination_by ns => sizeOf ns
end

theorem eraseT_eq (n : Node) : eraseT n = .mk n.text false (eraseF n.children) := by
  cases n; simp [eraseT]

/-- Recursive-descent reading of the heading list: a heading owns, as its
subtree, the run of strictly deeper headings that immediately follows it;
the remainder are its later siblings and its ancestors' siblings. -/
def descendF : List (Nat × String) → List Node
  | [] => []
  | (L, x) :: rest =>
    .mk x false (descendF (rest.takeWhile (fun h => L < h.1)))
      :: descendF (rest.dropWhile (fun h => L < h.1))
termination_by hs => hs.length
decreasing_by
  · simp only [List.length_cons]
    exact Nat.lt_succ_of_le (List.takeWhile_sublist _ |>.length_le)
  · simp only [List.length_cons]
    exact Nat.lt_succ_of_le (List.dropWhile_sublist _ |>.length_le)

theorem descendF_cons (L : Nat) (x : String) (rest : List (Nat × String)) :
    descendF ((L, x) :: rest)
      = .mk x false (descendF (rest.takeWhile (fun h => L < h.1)))
        :: descendF (rest.dropWhile (fun h => L < h.1)) := by
  rw [descendF]

theorem withCarry_none (cs : List Node) : withCarry cs none = cs := rfl

theorem withCarry_some (cs : List Node) (n : Node) : withCarry cs (some n) = cs ++ [n] := rfl

/-- Threading a completed node into popCarry is the same as first
appending it to the top entry's children. -/
theorem popCarry_some (L : Nat) (n : Node) (l : Nat) (t : String) (cs : List Node)
    (st : List (Nat × String × List Node)) :
    popCarry L (some n) ((l, t, cs) :: st) = popCarry L none ((l, t, cs ++ [n]) :: st) := by
  by_cases h : L ≤ l <;> simp [popCarry, withCarry, h]

theorem finishCarry_some (n : Node) (l : Nat) (t : String) (cs : List Node)
    (st : List (Nat × String × List Node)) :
    finishCarry (some n) ((l, t, cs) :: st) = finishCarry none ((l, t, cs ++ [n]) :: st) := by
  cases st <;> simp [finishCarry, withCarry]

theorem runM_append (st : List (Nat × String × List Node))
    (a b : List (Nat × String)) :
    runM st (a ++ b) = (runM st a).bind (fun st' => runM st' b) := by
  induction a generalizing st with
  | nil => simp [runM]
  | cons h a' ih =>
    obtain ⟨L, x⟩ := h
    rw [List.cons_append, runM]
    cases hpop : popWhileGE L st with
    | nil => simp [runM, hpop]
    | cons e st' =>
      rw [runM, hpop]
      exact ih _

theorem dropWhile_head_false {α : Type _} (p : α → Bool) (l : List α) (a : α)
    (l' : List α) (h : l.dropWhile p = a :: l') : p a = false := by
  induction l with
  | nil => simp [List.dropWhile] at h
  | cons b bs ih =>
    rw [List.dropWhile] at h
    cases hb : p b with
    | true =>
      rw [hb] at h
      exact ih h
    | false =>
      rw [hb] at h
      have h' : b :: bs = a :: l' := h
      obtain ⟨rfl, -⟩ := List.cons.injEq _ _ _ _ ▸ h'
      exact hb

/-- Running the import loop over headings that are all strictly deeper than
the open entry on top of the stack builds exactly the recursive-descent
forest of those headings, appended to that entry's children: observed
through any later pop at a level at most one above the entry's, or through
the final merge. -/
theorem runM_descend : ∀ (N : Nat) (hs : List (Nat × String)), hs.length ≤ N →
    ∀ (l : Nat) (t : String) (cs : List Node) (st : List (Nat × String × List Node)),
    (∀ h ∈ hs, l < h.1) →
    ∃ S', runM ((l, t, cs) :: st) hs = some S' ∧
      (∀ L, L ≤ l + 1 →
        popWhileGE L S' = popWhileGE L ((l, t, cs ++ descendF hs) :: st)) ∧
      finishStack S' = finishStack ((l, t, cs ++ descendF hs) :: st) := by
  intro N
  induction N with
  | zero =>
    intro hs hlen l t cs st hall
    have hnil : hs = [] := List.length_eq_zero.mp (Nat.le_zero.mp hlen)
    subst hnil
    exact ⟨(l, t, cs) :: st, by simp [runM], by simp [descendF], by simp [descendF]⟩
  | succ N ih =>
    intro hs hlen l t cs st hall
    cases hs with
    | nil =>
      exact ⟨(l, t, cs) :: st, by simp [runM], by simp [descendF], by simp [descendF]⟩
    | cons hd rest =>
      obtain ⟨L₁, x⟩ := hd
      have hL₁ : l < L₁ := hall (L₁, x) (List.mem_cons_self _ _)
      have hrestlen : rest.length ≤ N := by
        simp only [List.length_cons] at hlen
        omega
      have hpop0 : popWhileGE L₁ ((l, t, cs) :: st) = (l, t, cs) :: st := by
        rw [popWhileGE, popCarry, if_neg (by omega)]
        rfl
      have hinner_len : (rest.takeWhile (fun h => L₁ < h.1)).length ≤ N := by
        have h1 : (rest.takeWhile (fun h => L₁ < h.1)).length ≤ rest.length :=
          (List.takeWhile_sublist _).length_le
        omega
      have hafter_len : (rest.dropWhile (fun h => L₁ < h.1)).length ≤ N := by
        have h1 : (rest.dropWhile (fun h => L₁ < h.1)).length ≤ rest.length :=
          (List.dropWhile_sublist _).length_le
        omega
      have hinner_all : ∀ h ∈ rest.takeWhile (fun h => L₁ < h.1), L₁ < h.1 := by
        intro h hh
        simpa using List.mem_takeWhile_imp hh
      have hafter_all : ∀ h ∈ rest.dropWhile (fun h => L₁ < h.1), l < h.1 := by
        intro h hh
        refine hall h (List.mem_cons_of_mem _ ?_)
        exact (List.dropWhile_sublist _).subset hh
      have hrun1 : runM ((l, t, cs) :: st) ((L₁, x) :: rest)
          = runM ((L₁, x, []) :: (l, t, cs) :: st) rest := by
        rw [runM, hpop0]
      obtain ⟨S₁, hS₁run, hS₁pop, hS₁fin⟩ :=
        ih (rest.takeWhile (fun h => L₁ < h.1)) hinner_len L₁ x [] ((l, t, cs) :: st)
          hinner_all
      have hrun2 : runM ((l, t, cs) :: st) ((L₁, x) :: rest)
          = runM S₁ (rest.dropWhile (fun h => L₁ < h.1)) := by
        rw [hrun1]
        conv =>
          lhs
          rw [← List.takeWhile_append_dropWhile (p := fun h => L₁ < h.1) (l := rest)]
        rw [runM_append, hS₁run]
        rfl
      have hpopS₁ : ∀ L, L ≤ L₁ →
          popWhileGE L S₁
            = popCarry L none
                ((l, t, cs ++ [Node.mk x false (descendF (rest.takeWhile (fun h => L₁ < h.1)))]) :: st) := by
        intro L hLle
        rw [hS₁pop L (by omega)]
        rw [popWhileGE, popCarry, if_pos (by omega : L ≤ L₁)]
        rw [popCarry_some]
        simp [withCarry]
      cases hafter_case : rest.dropWhile (fun h => L₁ < h.1) with
      | nil =>
        refine ⟨S₁, ?_, ?_, ?_⟩
        · rw [hrun2, hafter_case]
          simp [runM]
        · intro L hL
          rw [hpopS₁ L (by omega)]
          rw [descendF_cons, hafter_case]
          simp [popWhileGE, descendF]
        · rw [hS₁fin]
          rw [descendF_cons, hafter_case]
          rw [finishStack, finishCarry, finishCarry_some]
          simp [finishStack, descendF, withCarry]
      | cons hd₂ after' =>
        obtain ⟨L₂, y⟩ := hd₂
        have hL₂le : L₂ ≤ L₁ := by
          have hfalse := dropWhile_head_false _ rest _ _ hafter_case
          simp at hfalse
          omega
        have hlL₂ : l < L₂ := by
          have := hafter_all (L₂, y) (by rw [hafter_case]; exact List.mem_cons_self _ _)
          simpa using this
        have hpop2 : popWhileGE L₂
            ((l, t, cs ++ [Node.mk x false (descendF (rest.takeWhile (fun h => L₁ < h.1)))]) :: st)
            = (l, t, cs ++ [Node.mk x false (descendF (rest.takeWhile (fun h => L₁ < h.1)))]) :: st := by
          rw [popWhileGE, popCarry, if_neg (by omega)]
          rfl
        have hsync : runM S₁ (rest.dropWhile (fun h => L₁ < h.1))
            = runM ((l, t, cs ++ [Node.mk x false (descendF (rest.takeWhile (fun h => L₁ < h.1)))]) :: st)
                (rest.dropWhile (fun h => L₁ < h.1)) := by
          rw [hafter_case, runM, runM]
          rw [show popWhileGE L₂ S₁
            = (l, t, cs ++ [Node.mk x false (descendF (rest.takeWhile (fun h => L₁ < h.1)))]) :: st
            from by rw [hpopS₁ L₂ hL₂le, ← popWhileGE, hpop2]]
          rw [hpop2]
        obtain ⟨S₂, hS₂run, hS₂pop, hS₂fin⟩ :=
          ih (rest.dropWhile (fun h => L₁ < h.1)) hafter_len l t
            (cs ++ [Node.mk x false (descendF (rest.takeWhile (fun h => L₁ < h.1)))]) st
            hafter_all
        have hlist : (cs ++ [Node.mk x false (descendF (rest.takeWhile (fun h => L₁ < h.1)))])
            ++ descendF (rest.dropWhile (fun h => L₁ < h.1))
            = cs ++ descendF ((L₁, x) :: rest) := by
          rw [descendF_cons]
          simp
        refine ⟨S₂, ?_, ?_, ?_⟩
        · rw [hrun2, hsync, hS₂run]
        · intro L hL
          rw [hS₂pop L hL, hlist]
        · rw [hS₂fin, hlist]

theorem tokenize_level_pos (md : String) : ∀ h ∈ tokenize md, 0 < h.1 := by
  intro h hh
  obtain ⟨cs, -, hcs⟩ := List.mem_filterMap.mp hh
  simp only [headingOfChars] at hcs
  split at hcs
  · split at hcs
    · exact Option.noConfusion hcs
    · rename_i hz
      obtain rfl := Option.some.inj hcs
      simpa using Nat.pos_of_ne_zero hz
  · exact Option.noConfusion hcs

/-- parse_md never raises and returns exactly the recursive-descent forest
of the heading tokens under a root labelled with the file's basename. -/
theorem parse_md_eq (md filename : String) :
    parse_md md filename
      = some (.mk (basename filename) false (descendF (tokenize md))) := by
  obtain ⟨S', hrun, -, hfin⟩ :=
    runM_descend (tokenize md).length (tokenize md) (Nat.le_refl _)
      0 (basename filename) [] [] (fun h hh => tokenize_level_pos md h hh)
  rw [parse_md, hrun]
  simp only [Option.some_bind]
  rw [hfin]
  simp [finishStack, finishCarry, withCarry]

mutual
/-- Every collapse flag in the tree is false. -/
def allUncollapsed : Node → Bool
  | .mk _ c cs => !c && allUncollapsedF cs
termination_by n => sizeOf n
def allUncollapsedF : List Node → Bool
  | [] => true
  | n :: ns => allUncollapsed n && allUncollapsedF ns
termination_by ns => sizeOf ns
end

mutual
/-- Equality of trees up to the collapse flags: same texts, same shapes,
same order, arbitrary flags. -/
def sameShape : Node → Node → Bool
  | .mk t _ cs, .mk t' _ cs' => (t == t') && sameShapeF cs cs'
termination_by n _ => sizeOf n
def sameShapeF : List Node → List Node → Bool
  | [], [] => true
  | n :: ns, m :: ms => sameShape n m && sameShapeF ns ms
  | _, _ => false
termination_by ns _ => sizeOf ns
end

theorem allUncollapsedF_descendF :
    ∀ (N : Nat) (hs : List (Nat × String)), hs.length ≤ N →
      allUncollapsedF (descendF hs) = true := by
  intro N
  induction N with
  | zero =>
    intro hs hlen
    have hnil : hs = [] := List.length_eq_zero.mp (Nat.le_zero.mp hlen)
    subst hnil
    simp [descendF, allUncollapsedF]
  | succ N ih =>
    intro hs hlen
    cases hs with
    | nil => simp [descendF, allUncollapsedF]
    | cons hd rest =>
      obtain ⟨L, x⟩ := hd
      rw [descendF_cons, allUncollapsedF, allUncollapsed]
      have h1 : (rest.takeWhile (fun h => L < h.1)).length ≤ N := by
        have hx : (rest.takeWhile (fun h => L < h.1)).length ≤ rest.length :=
          (List.takeWhile_sublist _).length_le
        simp only [List.length_cons] at hlen
        omega
      have h2 : (rest.dropWhile (fun h => L < h.1)).length ≤ N := by
        have hx : (rest.dropWhile (fun h => L < h.1)).length ≤ rest.length :=
          (List.dropWhile_sublist _).length_le
        simp only [List.length_cons] at hlen
        omega
      rw [ih _ h1, ih _ h2]
      simp

theorem sameShape_to_markdown :
    ∀ n : Node, ∀ m, sameShape n m = true → ∀ d, to_markdown n d = to_markdown m d := by
  refine node_ind
    (P := fun n => ∀ m, sameShape n m = true → ∀ d, to_markdown n d = to_markdown m d)
    (Q := fun ns => ∀ ms, sameShapeF ns ms = true → ∀ d,
      to_markdownF ns d = to_markdownF ms d) ?_ ?_ ?_
  · intro t c cs hQ m hsame d
    cases m with
    | mk t' c' cs' =>
      rw [sameShape] at hsame
      simp at hsame
      obtain ⟨rfl, hcs⟩ := hsame
      rw [to_markdown_eq, to_markdown_eq]
      simp only [Node.text_mk, Node.children_mk]
      rw [hQ cs' hcs (d + 1)]
  · intro ms hsame d
    cases ms with
    | nil => rfl
    | cons m ms' => simp [sameShapeF] at hsame
  · intro n ns hn hns ms hsame d
    cases ms with
    | nil => simp [sameShapeF] at hsame
    | cons m ms' =>
      rw [sameShapeF] at hsame
      simp at hsame
      obtain ⟨h1, h2⟩ := hsame
      simp only [to_markdownF]
      rw [hn m h1 d, hns ms' h2 d]

/-- C10.  Collapse state is never persisted: two trees that differ only in
collapse flags serialize identically, and every tree parse_md constructs
has every collapse flag false, so collapse state cannot survive a
save-and-reload cycle. -/
theorem c10_collapse_never_persisted :
    (∀ t u, sameShape t u = true → to_markdown t 0 = to_markdown u 0) ∧
    (∀ md fn t, parse_md md fn = some t → allUncollapsed t = true) := by
  constructor
  · intro t u hsame
    exact sameShape_to_markdown t u hsame 0
  · intro md fn t hparse
    rw [parse_md_eq] at hparse
    obtain rfl := (Option.some.inj hparse).symm
    rw [allUncollapsed]
    rw [allUncollapsedF_descendF (tokenize md).length (tokenize md) (Nat.le_refl _)]
    simp

theorem splitNl_no_nl (cs : List Char) (h : '\n' ∉ cs) : splitNl cs = [cs] := by
  induction cs with
  | nil => rfl
  | cons c cs' ih =>
    have hc : ¬ c = '\n' := fun hh => h (hh ▸ List.mem_cons_self c cs')
    have hcs' : '\n' ∉ cs' := fun hh => h (List.mem_cons_of_mem _ hh)
    rw [splitNl, ih hcs']
    simp [hc]

theorem splitNl_append_nl (A R : List Char) (hA : '\n' ∉ A) :
    splitNl (A ++ '\n' :: R) = A :: splitNl R := by
  induction A with
  | nil =>
    rw [List.nil_append, splitNl]
    simp
  | cons c A' ih =>
    have hc : ¬ c = '\n' := fun hh => hA (hh ▸ List.mem_cons_self c A')
    have hA' : '\n' ∉ A' := fun hh => hA (List.mem_cons_of_mem _ hh)
    rw [List.cons_append, splitNl, ih hA']
    simp [hc]

theorem tokenize_joinLines : ∀ ls : List String, (∀ l ∈ ls, '\n' ∉ l.data) →
    tokenize (joinLines ls) = ls.filterMap (fun l => headingOfChars l.data) := by
  intro ls
  induction ls with
  | nil => intro _; rfl
  | cons l ls' ih =>
    intro h
    cases ls' with
    | nil =>
      show tokenize l = _
      rw [tokenize, splitNl_no_nl l.data (h l (List.mem_cons_self _ _))]
      simp [List.filterMap]
    | cons l2 ls'' =>
      rw [show joinLines (l :: l2 :: ls'') = l ++ "\n" ++ joinLines (l2 :: ls'') from rfl]
      rw [tokenize]
      rw [show (l ++ "\n" ++ joinLines (l2 :: ls'')).data
          = l.data ++ '\n' :: (joinLines (l2 :: ls'')).data from by
        rw [String.data_append, String.data_append, List.append_assoc]
        rfl]
      rw [splitNl_append_nl _ _ (h l (List.mem_cons_self _ _))]
      rw [List.filterMap_cons]
      have ihh := ih (fun x hx => h x (List.mem_cons_of_mem _ hx))
      rw [tokenize] at ihh
      rw [ihh]
      cases hF : headingOfChars l.data <;> simp [List.filterMap_cons, hF]

theorem takeWhile_hash_replicate (d : Nat) (rest : List Char) :
    (List.replicate d '#' ++ ' ' :: rest).takeWhile (fun c => c == '#')
      = List.replicate d '#' := by
  induction d with
  | zero => simp [List.takeWhile]
  | succ d' ih =>
    rw [List.replicate_succ, List.cons_append, List.takeWhile_cons]
    simp only [show (('#' : Char) == '#') = true from rfl, if_true]
    rw [ih]

theorem headingOfChars_lineOf (d : Nat) (x : String) (hd : 0 < d) :
    headingOfChars (lineOf (d, x)).data = some (d, x) := by
  have hdata : (lineOf (d, x)).data = List.replicate d '#' ++ ' ' :: x.data := by
    rw [lineOf]
    rw [String.data_append, String.data_append, List.append_assoc]
    rfl
  have htake := takeWhile_hash_replicate d x.data
  have hdrop : (List.replicate d '#' ++ ' ' :: x.data).drop
      ((List.replicate d '#').length) = ' ' :: x.data := List.drop_left _ _
  rw [List.length_replicate] at hdrop
  rw [hdata, headingOfChars]
  simp only [htake, List.length_replicate, hdrop]
  rw [if_neg (by omega)]

mutual
/-- Texts as the Editing Operations leave them: nonempty (commit falls
back to "Untitled") and single-line (the popup is a single-line input). -/
def goodTexts : Node → Bool
  | .mk t _ cs => (!(t == "") && !(t.data.contains '\n')) && goodTextsF cs
termination_by n => sizeOf n
def goodTextsF : List Node → Bool
  | [] => true
  | n :: ns => goodTexts n && goodTextsF ns
termination_by ns => sizeOf ns
end

theorem filterMap_eq_self_of {α : Type _} (l : List α) (F : α → Option α)
    (h : ∀ e ∈ l, F e = some e) : l.filterMap F = l := by
  induction l with
  | nil => rfl
  | cons a l' ih =>
    rw [List.filterMap_cons, h a (List.mem_cons_self _ _)]
    rw [ih (fun e he => h e (List.mem_cons_of_mem _ he))]

theorem flatDepthF_level_ge :
    ∀ ns : List Node, ∀ d, ∀ e ∈ flatDepthF ns d, d ≤ e.1 := by
  refine forest_ind
    (P := fun n => ∀ d, ∀ e ∈ flatDepth n d, d ≤ e.1)
    (Q := fun ns => ∀ d, ∀ e ∈ flatDepthF ns d, d ≤ e.1) ?_ ?_ ?_
  · intro t c cs hQ d e he
    rw [flatDepth_eq] at he
    rcases List.mem_cons.mp he with rfl | he'
    · simp
    · have := hQ (d + 1) e (by simpa using he')
      omega
  · intro d e he
    simp [flatDepthF] at he
  · intro n ns hn hns d e he
    rw [flatDepthF] at he
    rcases List.mem_append.mp he with h1 | h2
    · exact hn d e h1
    · exact hns d e h2

theorem flatDepthF_text_clean :
    ∀ ns : List Node, goodTextsF ns = true →
      ∀ d, ∀ e ∈ flatDepthF ns d, '\n' ∉ e.2.data := by
  refine forest_ind
    (P := fun n => goodTexts n = true → ∀ d, ∀ e ∈ flatDepth n d, '\n' ∉ e.2.data)
    (Q := fun ns => goodTextsF ns = true → ∀ d, ∀ e ∈ flatDepthF ns d, '\n' ∉ e.2.data)
    ?_ ?_ ?_
  · intro t c cs hQ hgood d e he
    rw [goodTexts] at hgood
    simp at hgood
    obtain ⟨⟨-, hclean⟩, hrest⟩ := hgood
    rw [flatDepth_eq] at he
    rcases List.mem_cons.mp he with rfl | he'
    · simpa using hclean
    · exact hQ hrest (d + 1) e (by simpa using he')
  · intro _ d e he
    simp [flatDepthF] at he
  · intro n ns hn hns hgood d e he
    rw [goodTextsF] at hgood
    simp at hgood
    obtain ⟨h1, h2⟩ := hgood
    rw [flatDepthF] at he
    rcases List.mem_append.mp he with ha | hb
    · exact hn h1 d e ha
    · exact hns h2 d e hb

theorem takeWhile_append_of_all {α : Type _} (p : α → Bool) (A B : List α)
    (hA : ∀ a ∈ A, p a = true)
    (hB : B = [] ∨ ∃ b B', B = b :: B' ∧ p b = false) :
    (A ++ B).takeWhile p = A ∧ (A ++ B).dropWhile p = B := by
  induction A with
  | nil =>
    rcases hB with rfl | ⟨b, B', rfl, hb⟩
    · simp
    · simp [List.takeWhile_cons, List.dropWhile_cons, hb]
  | cons a A' ih =>
    have ha : p a = true := hA a (List.mem_cons_self _ _)
    obtain ⟨ht, hd⟩ := ih (fun x hx => hA x (List.mem_cons_of_mem _ hx))
    constructor
    · rw [List.cons_append, List.takeWhile_cons, if_pos ha, ht]
    · rw [List.cons_append, List.dropWhile_cons, if_pos ha, hd]

theorem flatDepthF_head_shape (ns : List Node) (d : Nat) :
    flatDepthF ns d = []
      ∨ ∃ x rest', flatDepthF ns d = (d, x) :: rest' := by
  cases ns with
  | nil => left; simp [flatDepthF]
  | cons n ns' =>
    right
    rw [flatDepthF, flatDepth_eq, List.cons_append]
    exact ⟨n.text, _, rfl⟩

/-- The recursive descent over the flattened pre-order of a forest (all
depths at least the base depth) rebuilds the forest, collapse flags
erased. -/
theorem descendF_flatDepthF :
    ∀ ns : List Node, ∀ d, descendF (flatDepthF ns d) = eraseF ns := by
  refine forest_ind
    (P := fun n => ∀ d, descendF (flatDepthF n.children d) = eraseF n.children)
    (Q := fun ns => ∀ d, descendF (flatDepthF ns d) = eraseF ns) ?_ ?_ ?_
  · intro t c cs hQ d
    simpa using hQ d
  · intro d
    simp [flatDepthF, descendF, eraseF]
  · intro n ns hn hns d
    rw [flatDepthF, flatDepth_eq, List.cons_append, descendF_cons]
    have hsplit := takeWhile_append_of_all (fun h => decide (d < h.1))
      (flatDepthF n.children (d + 1)) (flatDepthF ns d)
      (fun e he => by
        have := flatDepthF_level_ge n.children (d + 1) e he
        simp
        omega)
      (by
        rcases flatDepthF_head_shape ns d with hnil | ⟨x, rest', heq⟩
        · left; exact hnil
        · right
          exact ⟨(d, x), rest', heq, by simp⟩)
    rw [hsplit.1, hsplit.2]
    rw [hn (d + 1), hns d]
    rw [eraseF, eraseT_eq]

theorem lineOf_data (d : Nat) (x : String) :
    (lineOf (d, x)).data = List.replicate d '#' ++ ' ' :: x.data := by
  rw [lineOf]
  rw [String.data_append, String.data_append, List.append_assoc]
  rfl

/-- C1.  Round trip: for a tree built purely from Editing Operations — its
texts are nonempty and single-line — parsing the newline-join of the
serialization yields a root whose children are structurally equal (same
shape, same texts, same order, all collapse flags cleared since the
importer never sets them) to the original root's children. -/
theorem c1_round_trip (root : Node) (name : String)
    (h : goodTextsF root.children = true) :
    parse_md (joinLines (to_markdown root 0)) name
      = some (.mk (basename name) false (eraseF root.children)) := by
  have hlines : ∀ l ∈ to_markdown root 0, '\n' ∉ l.data := by
    intro l hl
    rw [to_markdown_filter_spec root 0] at hl
    obtain ⟨e, hemem, rfl⟩ := List.mem_map.mp hl
    obtain ⟨d, x⟩ := e
    have hpos : 0 < d := by simpa using List.of_mem_filter hemem
    have hefil := List.mem_of_mem_filter hemem
    rw [flatDepth_eq] at hefil
    rcases List.mem_cons.mp hefil with heq | he'
    · exfalso
      have : d = 0 := (Prod.mk.injEq _ _ _ _ ▸ heq).1
      omega
    · have hclean : '\n' ∉ x.data := by
        simpa using flatDepthF_text_clean root.children h 1 (d, x) (by simpa using he')
      intro hnl
      rw [lineOf_data] at hnl
      rcases List.mem_append.mp hnl with hin | hin
      · have := List.eq_of_mem_replicate hin
        simp at this
      · rcases List.mem_cons.mp hin with heq2 | hin2
        · simp at heq2
        · exact hclean hin2
  have htok : tokenize (joinLines (to_markdown root 0)) = flatDepthF root.children 1 := by
    rw [tokenize_joinLines _ hlines]
    rw [to_markdown_filter_spec root 0]
    rw [List.filterMap_map]
    have hpoint : ∀ e ∈ (flatDepth root 0).filter (fun e => 0 < e.1),
        ((fun l => headingOfChars l.data) ∘ lineOf) e = some e := by
      intro e he
      obtain ⟨d, x⟩ := e
      have hpos : 0 < d := by simpa using List.of_mem_filter he
      simpa using headingOfChars_lineOf d x hpos
    rw [filterMap_eq_self_of _ _ hpoint]
    rw [flatDepth_eq, List.filter_cons]
    rw [if_neg (by simp)]
    apply List.filter_eq_self.mpr
    intro e he
    have := flatDepthF_level_ge root.children 1 e he
    simp
    omega
  rw [parse_md_eq, htok, descendF_flatDepthF root.children 1]

/-!  C3: the parent of each imported heading is the nearest preceding
heading with a strictly smaller level. -/

/-- Nearest preceding strictly-smaller level: the greatest j < i whose
level is strictly below heading i's level, none when there is none. -/
def nps (levels : List Nat) (i : Nat) : Option Nat :=
  ((List.range i).filter (fun j => levels.getD j 0 < levels.getD i 0)).getLast?

/-- The claim's reading of the whole import: heading i, in order, carries
its own text and has as parent the nearest preceding strictly-smaller
heading (none meaning the synthetic root). -/
def npsSpec (hs : List (Nat × String)) : List (Option Nat × String) :=
  (List.range hs.length).map
    (fun i => (nps (hs.map Prod.fst) i, (hs.map Prod.snd).getD i ""))

mutual
/-- Number of nodes of a tree / forest. -/
def sizeT : Node → Nat
  | .mk _ _ cs => 1 + sizeF cs
termination_by n => sizeOf n
def sizeF : List Node → Nat
  | [] => 0
  | n :: ns => sizeT n + sizeF ns
termination_by ns => sizeOf ns
end

mutual
/-- Pre-order listing of a tree rooted at index k under parent par: each
node contributes (its parent's index — none for a child of the synthetic
root — , its text), indices counted in pre-order. -/
def flatT (k : Nat) (par : Option Nat) : Node → List (Option Nat × String)
  | .mk t _ cs => (par, t) :: flatF (k + 1) (some k) cs
termination_by n => sizeOf n
def flatF (k : Nat) (par : Option Nat) : List Node → List (Option Nat × String)
  | [] => []
  | n :: ns => flatT k par n ++ flatF (k + sizeT n) par ns
termination_by ns => sizeOf ns
end

theorem range_filter_getLast?_some (P : Nat → Bool) :
    ∀ n j, (((List.range n).filter P).getLast? = some j
      ↔ (j < n ∧ P j = true ∧ ∀ k, j < k → k < n → P k = false)) := by
  intro n
  induction n with
  | zero =>
    intro j
    simp
  | succ n ih =>
    intro j
    rw [List.range_succ, List.filter_append]
    constructor
    · intro h
      by_cases hPn : P n = true
      · rw [List.filter_cons, if_pos hPn] at h
        simp only [List.filter_nil] at h
        rw [List.getLast?_concat] at h
        obtain rfl := Option.some.inj h
        exact ⟨Nat.lt_succ_self _, hPn, fun k hk1 hk2 => by omega⟩
      · rw [List.filter_cons, if_neg hPn] at h
        simp only [List.filter_nil, List.append_nil] at h
        obtain ⟨h1, h2, h3⟩ := (ih j).mp h
        refine ⟨by omega, h2, fun k hk1 hk2 => ?_⟩
        by_cases hkn : k = n
        · subst hkn
          simpa using hPn
        · exact h3 k hk1 (by omega)
    · rintro ⟨h1, h2, h3⟩
      by_cases hPn : P n = true
      · have hjn : j = n := by
          by_contra hne
          have hjlt : j < n := by omega
          have := h3 n hjlt (Nat.lt_succ_self _)
          rw [hPn] at this
          exact Bool.noConfusion this
        subst hjn
        rw [List.filter_cons, if_pos hPn]
        simp only [List.filter_nil]
        rw [List.getLast?_concat]
      · have hjn : j ≠ n := fun hh => hPn (hh ▸ h2)
        rw [List.filter_cons, if_neg hPn]
        simp only [List.filter_nil, List.append_nil]
        exact (ih j).mpr ⟨by omega, h2, fun k hk1 hk2 => h3 k hk1 (by omega)⟩

theorem range_filter_getLast?_none (P : Nat → Bool) :
    ∀ n, (((List.range n).filter P).getLast? = none ↔ ∀ j, j < n → P j = false) := by
  intro n
  induction n with
  | zero => simp
  | succ n ih =>
    rw [List.range_succ, List.filter_append]
    constructor
    · intro h
      by_cases hPn : P n = true
      · rw [List.filter_cons, if_pos hPn] at h
        simp only [List.filter_nil] at h
        rw [List.getLast?_concat] at h
        exact Option.noConfusion h
      · rw [List.filter_cons, if_neg hPn] at h
        simp only [List.filter_nil, List.append_nil] at h
        intro j hj
        by_cases hjn : j = n
        · subst hjn; simpa using hPn
        · exact ih.mp h j (by omega)
    · intro h
      have hPn : P n = false := h n (Nat.lt_succ_self _)
      rw [List.filter_cons, if_neg (by simp [hPn])]
      simp only [List.filter_nil, List.append_nil]
      exact ih.mpr (fun j hj => h j (by omega))

theorem nps_eq_some_iff (lv : List Nat) (i j : Nat) :
    nps lv i = some j
      ↔ (j < i ∧ lv.getD j 0 < lv.getD i 0
          ∧ ∀ k, j < k → k < i → ¬ lv.getD k 0 < lv.getD i 0) := by
  rw [nps, range_filter_getLast?_some]
  constructor
  · rintro ⟨h1, h2, h3⟩
    exact ⟨h1, by simpa using h2, fun k hk1 hk2 => by simpa using h3 k hk1 hk2⟩
  · rintro ⟨h1, h2, h3⟩
    exact ⟨h1, by simpa using h2, fun k hk1 hk2 => by simpa using h3 k hk1 hk2⟩

theorem nps_eq_none_iff (lv : List Nat) (i : Nat) :
    nps lv i = none ↔ ∀ j, j < i → ¬ lv.getD j 0 < lv.getD i 0 := by
  rw [nps, range_filter_getLast?_none]
  constructor
  · intro h j hj
    simpa using h j hj
  · intro h j hj
    simpa using h j hj

theorem getD_append_left {α : Type _} (l₁ l₂ : List α) (d : α) (k : Nat)
    (h : k < l₁.length) : (l₁ ++ l₂).getD k d = l₁.getD k d := by
  induction l₁ generalizing k with
  | nil => simp at h
  | cons a l₁' ih =>
    cases k with
    | zero => rfl
    | succ k' =>
      simp only [List.length_cons] at h
      simpa using ih k' (by omega)

theorem getD_append_shift {α : Type _} (l₁ l₂ : List α) (d : α) (k : Nat) :
    (l₁ ++ l₂).getD (l₁.length + k) d = l₂.getD k d := by
  induction l₁ with
  | nil => simp
  | cons a l₁' ih =>
    simp only [List.length_cons, List.cons_append]
    rw [show l₁'.length + 1 + k = (l₁'.length + k) + 1 from by omega]
    simpa using ih

theorem getD_mem {α : Type _} (l : List α) (d : α) (k : Nat) (h : k < l.length) :
    l.getD k d ∈ l := by
  rw [List.getD_eq_getElem?_getD, List.getElem?_eq_getElem h]
  simp [List.getElem_mem h]

theorem nps_append_left (l₁ l₂ : List Nat) (i : Nat) (hi : i < l₁.length) :
    nps (l₁ ++ l₂) i = nps l₁ i := by
  rw [nps, nps]
  rw [getD_append_left _ _ _ _ hi]
  congr 1
  apply List.filter_congr
  intro j hj
  have hjm : j < l₁.length := by
    have := List.mem_range.mp hj
    omega
  rw [getD_append_left _ _ _ _ hjm]

theorem nps_cons (L : Nat) (tl : List Nat) (i : Nat) (hi : 0 < i) :
    nps (L :: tl) i
      = match nps tl (i - 1) with
        | some j => some (j + 1)
        | none => if L < tl.getD (i - 1) 0 then some 0 else none := by
  have hgetDi : (L :: tl).getD i 0 = tl.getD (i - 1) 0 := by
    cases i with
    | zero => omega
    | succ i' => simp
  cases hn : nps tl (i - 1) with
  | some j =>
    obtain ⟨h1, h2, h3⟩ := (nps_eq_some_iff tl (i - 1) j).mp hn
    refine (nps_eq_some_iff (L :: tl) i (j + 1)).mpr ⟨by omega, ?_, ?_⟩
    · rw [hgetDi]
      simpa using h2
    · intro k hk1 hk2
      cases k with
      | zero => omega
      | succ k' =>
        rw [hgetDi]
        simpa using h3 k' (by omega) (by omega)
  | none =>
    have hnone := (nps_eq_none_iff tl (i - 1)).mp hn
    by_cases hL : L < tl.getD (i - 1) 0
    · rw [if_pos hL]
      refine (nps_eq_some_iff (L :: tl) i 0).mpr ⟨hi, ?_, ?_⟩
      · rw [hgetDi]
        simpa using hL
      · intro k hk1 hk2
        cases k with
        | zero => omega
        | succ k' =>
          rw [hgetDi]
          simpa using hnone k' (by omega)
    · rw [if_neg hL]
      refine (nps_eq_none_iff (L :: tl) i).mpr ?_
      intro j hj
      cases j with
      | zero =>
        rw [hgetDi]
        simpa using hL
      | succ j' =>
        rw [hgetDi]
        simpa using hnone j' (by omega)

theorem nps_append (L : Nat) (innerL postL : List Nat) (i : Nat)
    (hi : i < postL.length)
    (hinner : ∀ a ∈ innerL, L < a)
    (hpost0 : postL.getD 0 0 ≤ L) :
    nps ((L :: innerL) ++ postL) (1 + innerL.length + i)
      = (nps postL i).map (fun j => j + 1 + innerL.length) := by
  have hlen : (L :: innerL).length = 1 + innerL.length := by
    simp
    omega
  have hshift : ∀ k, ((L :: innerL) ++ postL).getD (1 + innerL.length + k) 0
      = postL.getD k 0 := by
    intro k
    rw [← hlen, getD_append_shift]
  have hpre : ∀ k, k < 1 + innerL.length →
      ((L :: innerL) ++ postL).getD k 0 = (L :: innerL).getD k 0 := by
    intro k hk
    exact getD_append_left _ _ _ _ (by omega)
  cases hn : nps postL i with
  | some j =>
    obtain ⟨h1, h2, h3⟩ := (nps_eq_some_iff postL i j).mp hn
    rw [show Option.map (fun j => j + 1 + innerL.length) (some j)
      = some (j + 1 + innerL.length) from rfl]
    refine (nps_eq_some_iff _ _ _).mpr ⟨by omega, ?_, ?_⟩
    · rw [show j + 1 + innerL.length = 1 + innerL.length + j from by omega, hshift, hshift]
      exact h2
    · intro k hk1 hk2
      have hkge : 1 + innerL.length ≤ k := by omega
      obtain ⟨k', rfl⟩ : ∃ k', k = 1 + innerL.length + k' := ⟨k - (1 + innerL.length), by omega⟩
      rw [hshift, hshift]
      exact h3 k' (by omega) (by omega)
  | none =>
    have hnone := (nps_eq_none_iff postL i).mp hn
    rw [show Option.map (fun j : Nat => j + 1 + innerL.length) none
      = (none : Option Nat) from rfl]
    refine (nps_eq_none_iff _ _).mpr ?_
    intro j hj
    rw [hshift]
    have hile : postL.getD i 0 ≤ L := by
      cases i with
      | zero => exact hpost0
      | succ i' =>
        have := hnone 0 (by omega)
        have h00 : postL.getD 0 0 ≤ L := hpost0
        omega
    by_cases hjsmall : j < 1 + innerL.length
    · rw [hpre j hjsmall]
      cases j with
      | zero =>
        rw [show (L :: innerL).getD 0 0 = L from rfl]
        omega
      | succ j' =>
        have hj'lt : j' < innerL.length := by omega
        have hmem : innerL.getD j' 0 ∈ innerL := getD_mem _ _ _ hj'lt
        have hLlt := hinner _ hmem
        rw [List.getD_cons_succ]
        omega
    · obtain ⟨j', rfl⟩ : ∃ j', j = 1 + innerL.length + j' := ⟨j - (1 + innerL.length), by omega⟩
      rw [hshift]
      exact hnone j' (by omega)

theorem sizeF_descendF : ∀ (N : Nat) (hs : List (Nat × String)), hs.length ≤ N →
    sizeF (descendF hs) = hs.length := by
  intro N
  induction N with
  | zero =>
    intro hs hlen
    have hnil : hs = [] := List.length_eq_zero.mp (Nat.le_zero.mp hlen)
    subst hnil
    simp [descendF, sizeF]
  | succ N ih =>
    intro hs hlen
    cases hs with
    | nil => simp [descendF, sizeF]
    | cons hd rest =>
      obtain ⟨L, x⟩ := hd
      have hlen' : rest.length ≤ N := by
        simp only [List.length_cons] at hlen
        omega
      have h1 : (rest.takeWhile (fun h => L < h.1)).length ≤ N :=
        le_trans (List.takeWhile_sublist _).length_le hlen'
      have h2 : (rest.dropWhile (fun h => L < h.1)).length ≤ N :=
        le_trans (List.dropWhile_sublist _).length_le hlen'
      have hsum : (rest.takeWhile (fun h => L < h.1)).length
          + (rest.dropWhile (fun h => L < h.1)).length = rest.length := by
        have hx := congrArg List.length
          (List.takeWhile_append_dropWhile (p := fun h => L < h.1) (l := rest))
        rw [List.length_append] at hx
        exact hx
      rw [descendF_cons, sizeF, sizeT, ih _ h1, ih _ h2]
      simp only [List.length_cons]
      omega

theorem getElem?_range_map {β : Type _} (f : Nat → β) (n i : Nat) :
    ((List.range n).map f)[i]? = if i < n then some (f i) else none := by
  rw [List.getElem?_map]
  by_cases h : i < n
  · rw [List.getElem?_range h, if_pos h]
    rfl
  · rw [if_neg h, List.getElem?_eq_none]
    · rfl
    · simp
      omega

theorem flatF_cons (k : Nat) (p : Option Nat) (n : Node) (ns : List Node) :
    flatF k p (n :: ns) = flatT k p n ++ flatF (k + sizeT n) p ns := by
  rw [flatF]

theorem flatT_mk (k : Nat) (p : Option Nat) (t : String) (c : Bool) (cs : List Node) :
    flatT k p (.mk t c cs) = (p, t) :: flatF (k + 1) (some k) cs := by
  rw [flatT]

theorem sizeT_mk (t : String) (c : Bool) (cs : List Node) :
    sizeT (.mk t c cs) = 1 + sizeF cs := by
  rw [sizeT]

/-- The indexed pre-order of the recursive-descent forest of a heading
list records, for every heading in order, exactly the
nearest-preceding-strictly-smaller-level parent (the base parent when
there is none) and the heading's text. -/
theorem flatF_descendF : ∀ (N : Nat) (hs : List (Nat × String)), hs.length ≤ N →
    ∀ (k : Nat) (p : Option Nat),
    flatF k p (descendF hs)
      = (List.range hs.length).map (fun i =>
          ((nps (hs.map Prod.fst) i).elim p (fun j => some (j + k)),
           (hs.map Prod.snd).getD i "")) := by
  intro N
  induction N with
  | zero =>
    intro hs hlen k p
    have hnil : hs = [] := List.length_eq_zero.mp (Nat.le_zero.mp hlen)
    subst hnil
    simp [descendF, flatF]
  | succ N ih =>
    intro hs hlen k p
    cases hs with
    | nil => simp [descendF, flatF]
    | cons hd rest =>
      obtain ⟨L, x⟩ := hd
      have hlen' : rest.length ≤ N := by
        simp only [List.length_cons] at hlen
        omega
      have hIlen : (rest.takeWhile (fun h => L < h.1)).length ≤ N :=
        le_trans (List.takeWhile_sublist _).length_le hlen'
      have hAlen : (rest.dropWhile (fun h => L < h.1)).length ≤ N :=
        le_trans (List.dropWhile_sublist _).length_le hlen'
      have hIall : ∀ h ∈ rest.takeWhile (fun h => L < h.1), L < h.1 := by
        intro h hh
        simpa using List.mem_takeWhile_imp hh
      have hAhead : rest.dropWhile (fun h => L < h.1) = []
          ∨ ∃ L₂ y after', rest.dropWhile (fun h => L < h.1) = (L₂, y) :: after' ∧ L₂ ≤ L := by
        cases hA : rest.dropWhile (fun h => L < h.1) with
        | nil => exact Or.inl rfl
        | cons hd₂ after' =>
          obtain ⟨L₂, y⟩ := hd₂
          have := dropWhile_head_false _ rest _ _ hA
          simp at this
          exact Or.inr ⟨L₂, y, after', rfl, this⟩
      have hsplit : rest.takeWhile (fun h => L < h.1) ++ rest.dropWhile (fun h => L < h.1)
          = rest := List.takeWhile_append_dropWhile _ _
      rw [descendF_cons]
      rw [flatF_cons, flatT_mk, sizeT_mk, sizeF_descendF N _ hIlen]
      rw [ih _ hIlen (k + 1) (some k)]
      rw [ih _ hAlen (k + (1 + (rest.takeWhile (fun h => L < h.1)).length)) p]
      rw [show ((L, x) :: rest : List (Nat × String))
          = (L, x) :: (rest.takeWhile (fun h => L < h.1) ++ rest.dropWhile (fun h => L < h.1))
          from by rw [hsplit]]
      generalize hI : rest.takeWhile (fun h => L < h.1) = inner at *
      generalize hA : rest.dropWhile (fun h => L < h.1) = after at *
      apply List.ext
      intro idx
      rw [List.get?_eq_getElem?, List.get?_eq_getElem?]
      have hilen : ((List.range inner.length).map (fun i =>
          ((nps (inner.map Prod.fst) i).elim (some k) (fun j => some (j + (k + 1))),
           (inner.map Prod.snd).getD i ""))).length = inner.length := by
        simp
      have hlvl : (((L, x) :: (inner ++ after)).map Prod.fst)
          = L :: (inner.map Prod.fst ++ after.map Prod.fst) := by
        simp
      have htxt : (((L, x) :: (inner ++ after)).map Prod.snd)
          = x :: (inner.map Prod.snd ++ after.map Prod.snd) := by
        simp
      have hlen2 : ((L, x) :: (inner ++ after)).length = 1 + (inner.length + after.length) := by
        simp
        omega
      rw [hlvl, htxt, hlen2]
      by_cases hcase : idx < 1 + inner.length
      · rw [List.getElem?_append, if_pos (by simp; omega)]
        cases idx with
        | zero =>
          rw [getElem?_range_map, if_pos (by omega)]
          have hnps0 : nps (L :: (inner.map Prod.fst ++ after.map Prod.fst)) 0 = none := by
            simp [nps]
          rw [List.getElem?_cons_zero, hnps0]
          simp
        | succ i' =>
          have hi'm : i' < inner.length := by omega
          rw [List.getElem?_cons_succ, getElem?_range_map, if_pos hi'm]
          rw [getElem?_range_map, if_pos (by omega)]
          have hlift : nps (L :: (inner.map Prod.fst ++ after.map Prod.fst)) (i' + 1)
              = match nps (inner.map Prod.fst) i' with
                | some j => some (j + 1)
                | none => some 0 := by
            rw [nps_cons _ _ _ (by omega)]
            simp only [Nat.add_sub_cancel]
            rw [nps_append_left _ _ _ (by simpa using hi'm)]
            cases hn : nps (inner.map Prod.fst) i' with
            | some j => rfl
            | none =>
              rw [if_pos]
              rw [getD_append_left _ _ _ _ (by simpa using hi'm)]
              have hmem : (inner.map Prod.fst).getD i' 0 ∈ inner.map Prod.fst :=
                getD_mem _ _ _ (by simpa using hi'm)
              obtain ⟨e, he, heq⟩ := List.mem_map.mp hmem
              rw [← heq]
              exact hIall e he
          rw [hlift]
          have htshift : (x :: (inner.map Prod.snd ++ after.map Prod.snd)).getD (i' + 1) ""
              = (inner.map Prod.snd).getD i' "" := by
            rw [List.getD_cons_succ]
            exact getD_append_left _ _ _ _ (by simpa using hi'm)
          rw [htshift]
          cases hn : nps (inner.map Prod.fst) i' with
          | some j =>
            simp only [Option.elim]
            rw [show j + 1 + k = j + (k + 1) from by omega]
          | none =>
            simp only [Option.elim]
            rw [show 0 + k = k from by omega]
      · rw [List.getElem?_append, if_neg (by simp; omega)]
        obtain ⟨i', rfl⟩ : ∃ i', idx = 1 + inner.length + i' :=
          ⟨idx - (1 + inner.length), by omega⟩
        have hidx : 1 + inner.length + i' - ((p, x) ::
            (List.range inner.length).map (fun i =>
              ((nps (inner.map Prod.fst) i).elim (some k) (fun j => some (j + (k + 1))),
               (inner.map Prod.snd).getD i ""))).length = i' := by
          simp
          omega
        rw [hidx]
        rw [getElem?_range_map, getElem?_range_map]
        by_cases hq : i' < after.length
        · rw [if_pos hq, if_pos (by omega)]
          have hpost0 : (after.map Prod.fst).getD 0 0 ≤ L := by
            rcases hAhead with rfl | ⟨L₂, y, after', rfl, hle⟩
            · simp at hq
            · simpa using hle
          have hnpsA : nps (L :: (inner.map Prod.fst ++ after.map Prod.fst))
              (1 + inner.length + i')
              = (nps (after.map Prod.fst) i').map (fun j => j + 1 + inner.length) := by
            have := nps_append L (inner.map Prod.fst) (after.map Prod.fst) i'
              (by simpa using hq)
              (by
                intro a ha
                obtain ⟨e, he, heq⟩ := List.mem_map.mp ha
                rw [← heq]
                exact hIall e he)
              hpost0
            rw [show (1 + (inner.map Prod.fst).length + i') = 1 + inner.length + i'
              from by simp] at this
            simpa using this
          rw [hnpsA]
          have htshiftA : (x :: (inner.map Prod.snd ++ after.map Prod.snd)).getD
              (1 + inner.length + i') "" = (after.map Prod.snd).getD i' "" := by
            rw [show 1 + inner.length + i' = (inner.map Prod.snd).length + i' + 1
              from by simp; omega]
            rw [List.getD_cons_succ]
            exact getD_append_shift _ _ _ _
          rw [htshiftA]
          cases hn : nps (after.map Prod.fst) i' with
          | some j =>
            simp only [Option.map_some', Option.elim]
            rw [show j + 1 + inner.length + k = j + (k + (1 + inner.length)) from by omega]
          | none =>
            simp only [Option.map_none', Option.elim]
        · rw [if_neg hq, if_neg (by omega)]

/-- C3.  Importer nesting: parse_md consumes the heading tokens in order
with the level-tracked stack — pop while the top level is ≥ the incoming
level, attach under the new top, push — and never fails; consequently the
constructed forest, read in pre-order, lists the headings in input order,
and the parent of each heading is exactly the nearest preceding heading
with a strictly smaller level, the root when there is none, including
arbitrary level jumps. -/
theorem c3_importer_nesting (md filename : String) :
    ∃ t, parse_md md filename = some t
      ∧ flatF 0 none t.children = npsSpec (tokenize md) := by
  refine ⟨_, parse_md_eq md filename, ?_⟩
  show flatF 0 none (descendF (tokenize md)) = npsSpec (tokenize md)
  rw [flatF_descendF (tokenize md).length (tokenize md) (Nat.le_refl _) 0 none]
  rw [npsSpec]
  apply List.map_congr_left
  intro i hi
  cases hn : nps ((tokenize md).map Prod.fst) i <;> simp [Option.elim, hn]

theorem c1_round_trip_witness :
    goodTextsF (Node.mk "root" true
        [Node.mk "A" false [Node.mk "B" true []], Node.mk "C" false []]).children = true
    ∧ parse_md (joinLines (to_markdown (Node.mk "root" true
        [Node.mk "A" false [Node.mk "B" true []], Node.mk "C" false []]) 0)) "dir/map.md"
      = some (Node.mk (basename "dir/map.md") false
          (eraseF [Node.mk "A" false [Node.mk "B" true []], Node.mk "C" false []])) := by
  have hgood : goodTextsF (Node.mk "root" true
      [Node.mk "A" false [Node.mk "B" true []], Node.mk "C" false []]).children = true := by
    simp only [Node.children_mk, goodTextsF, goodTexts]
    decide
  exact ⟨hgood, c1_round_trip _ "dir/map.md" hgood⟩

theorem c6_text_entry_transitions_witness :
    (AppState.mk "f.md" (Node.mk "r" false []) 0 true " ").is_editing = true
    ∧ ((step (AppState.mk "f.md" (Node.mk "r" false []) 0 true " ") .up
          = some (AppState.mk "f.md" (Node.mk "r" false []) 0 true " ")
        ∧ step (AppState.mk "f.md" (Node.mk "r" false []) 0 true " ") .down
          = some (AppState.mk "f.md" (Node.mk "r" false []) 0 true " ")
        ∧ step (AppState.mk "f.md" (Node.mk "r" false []) 0 true " ") .edit
          = some (AppState.mk "f.md" (Node.mk "r" false []) 0 true " ")
        ∧ step (AppState.mk "f.md" (Node.mk "r" false []) 0 true " ") .addChild
          = some (AppState.mk "f.md" (Node.mk "r" false []) 0 true " ")
        ∧ step (AppState.mk "f.md" (Node.mk "r" false []) 0 true " ") .addSibling
          = some (AppState.mk "f.md" (Node.mk "r" false []) 0 true " ")
        ∧ step (AppState.mk "f.md" (Node.mk "r" false []) 0 true " ") .delete
          = some (AppState.mk "f.md" (Node.mk "r" false []) 0 true " ")
        ∧ step (AppState.mk "f.md" (Node.mk "r" false []) 0 true " ") .toggleCollapse
          = some (AppState.mk "f.md" (Node.mk "r" false []) 0 true " "))
      ∧ (∀ typed, ∃ s' p n,
          step (AppState.mk "f.md" (Node.mk "r" false []) 0 true " ") (.finishEdit typed)
            = some s'
          ∧ selected (AppState.mk "f.md" (Node.mk "r" false []) 0 true " ") = some (p, n)
          ∧ s'.root = modifyPath (setTextTo typed)
              (AppState.mk "f.md" (Node.mk "r" false []) 0 true " ").root p
          ∧ getPath s'.root p
              = some (.mk (if typed = "" then "Untitled" else typed) n.collapsed n.children)
          ∧ s'.is_editing = false)
      ∧ (∃ s2, step (AppState.mk "f.md" (Node.mk "r" false []) 0 true " ") .cancelEdit
            = some s2
          ∧ s2.root = (AppState.mk "f.md" (Node.mk "r" false []) 0 true " ").root
          ∧ s2.is_editing = false
          ∧ s2.selected_index
              = (AppState.mk "f.md" (Node.mk "r" false []) 0 true " ").selected_index)) :=
  ⟨rfl, c6_text_entry_transitions _ rfl⟩

theorem c7_insert_child_witness :
    (AppState.mk "f.md" (Node.mk "r" true [Node.mk "a" false []]) 0 false " ").is_editing
      = false
    ∧ (∃ s' p n, ∃ j : Nat,
        step (AppState.mk "f.md" (Node.mk "r" true [Node.mk "a" false []]) 0 false " ")
          .addChild = some s'
        ∧ selected (AppState.mk "f.md" (Node.mk "r" true [Node.mk "a" false []]) 0 false " ")
            = some (p, n)
        ∧ s'.root = modifyPath appendChild
            (AppState.mk "f.md" (Node.mk "r" true [Node.mk "a" false []]) 0 false " ").root p
        ∧ getPath s'.root p = some (.mk n.text false (n.children ++ [newChildNode]))
        ∧ s'.selected_index = (j : Int)
        ∧ (visPaths s'.root)[j]? = some (p ++ [n.children.length])
        ∧ getPath s'.root (p ++ [n.children.length]) = some newChildNode
        ∧ (get_selected_node s').2 = some newChildNode
        ∧ newChildNode ∈ get_visible_nodes s'
        ∧ s'.is_editing = true) :=
  ⟨rfl, c7_insert_child _ rfl⟩

theorem c8_silent_noops_witness :
    (AppState.mk "f.md" (Node.mk "r" false []) 0 false " ").is_editing = false
    ∧ ((∀ n, selected (AppState.mk "f.md" (Node.mk "r" false []) 0 false " ") = some ([], n) →
        (∃ s1, step (AppState.mk "f.md" (Node.mk "r" false []) 0 false " ") .delete = some s1
          ∧ s1.root = (AppState.mk "f.md" (Node.mk "r" false []) 0 false " ").root)
        ∧ (∃ s2, step (AppState.mk "f.md" (Node.mk "r" false []) 0 false " ") .addSibling
              = some s2
            ∧ s2.root = (AppState.mk "f.md" (Node.mk "r" false []) 0 false " ").root
            ∧ s2.is_editing = false))
      ∧ (∀ p n, selected (AppState.mk "f.md" (Node.mk "r" false []) 0 false " ") = some (p, n)
          → n.children = [] →
          ∃ s3, step (AppState.mk "f.md" (Node.mk "r" false []) 0 false " ") .toggleCollapse
              = some s3
            ∧ s3.root = (AppState.mk "f.md" (Node.mk "r" false []) 0 false " ").root)) :=
  ⟨rfl, c8_silent_noops _ rfl⟩

theorem c9_visibility_monotonicity_witness :
    [0] ∈ visPaths (Node.mk "r" false [Node.mk "a" true [Node.mk "b" false []]])
    ∧ getPath (Node.mk "r" false [Node.mk "a" true [Node.mk "b" false []]]) [0]
        = some (Node.mk "a" true [Node.mk "b" false []])
    ∧ (Node.mk "a" true [Node.mk "b" false []]).children ≠ []
    ∧ (((Node.mk "a" true [Node.mk "b" false []]).collapsed = true →
        (visibleNodes (modifyPath flipCollapsed
            (Node.mk "r" false [Node.mk "a" true [Node.mk "b" false []]]) [0])).length
          = (visibleNodes (Node.mk "r" false [Node.mk "a" true [Node.mk "b" false []]])).length
            + ((visibleNodes (.mk (Node.mk "a" true [Node.mk "b" false []]).text false
                (Node.mk "a" true [Node.mk "b" false []]).children)).length - 1))
      ∧ ((Node.mk "a" true [Node.mk "b" false []]).collapsed = false →
        (visibleNodes (Node.mk "r" false [Node.mk "a" true [Node.mk "b" false []]])).length
          = (visibleNodes (modifyPath flipCollapsed
              (Node.mk "r" false [Node.mk "a" true [Node.mk "b" false []]]) [0])).length
            + ((visibleNodes (.mk (Node.mk "a" true [Node.mk "b" false []]).text false
                (Node.mk "a" true [Node.mk "b" false []]).children)).length - 1))
      ∧ modifyPath flipCollapsed (modifyPath flipCollapsed
          (Node.mk "r" false [Node.mk "a" true [Node.mk "b" false []]]) [0]) [0]
          = Node.mk "r" false [Node.mk "a" true [Node.mk "b" false []]]
      ∧ (visibleNodes (modifyPath flipCollapsed (modifyPath flipCollapsed
          (Node.mk "r" false [Node.mk "a" true [Node.mk "b" false []]]) [0]) [0])).length
          = (visibleNodes (Node.mk "r" false [Node.mk "a" true [Node.mk "b" false []]])).length) := by
  have h1 : [0] ∈ visPaths (Node.mk "r" false [Node.mk "a" true [Node.mk "b" false []]]) := by
    simp [visPaths, visPathsF]
  have h2 : getPath (Node.mk "r" false [Node.mk "a" true [Node.mk "b" false []]]) [0]
      = some (Node.mk "a" true [Node.mk "b" false []]) := rfl
  have h3 : (Node.mk "a" true [Node.mk "b" false []]).children ≠ [] := by simp
  exact ⟨h1, h2, h3, c9_visibility_monotonicity _ _ _ h1 h2 h3⟩
